import Mathlib

/-!
# Remote console client (`client-go/main.go`): shallow embedding and verified properties

The Go program is a Socket.IO-style client.  It reads text frames from a
connection, decodes `execute_command` events, runs the command either in a
local shell or in a persistent `adb shell` child, and writes
`output_from_client` events back.

Modelling conventions

* A Go `string` is a sequence of bytes: `GoString = List Nat`, every element a
  byte value.  Go string literals of the source are written `lit "..."`.
* The outside world (file system, home directory, child processes) is an
  `Env` record of oracles that a call consults; `Client` carries the fields of
  the Go struct plus the frames written to the connection so far.
* A call that does not return (it waits for a child process that never
  exits, or it reads from a nil stream) is `none`; every other call returns
  `some` result.
* Time enters only through the duration a child process took, which the
  world reports; the session is not being stopped while a call runs.
* Standard-library functions (`strings`, `unicode/utf8`, `path/filepath`,
  `encoding/json`) are modelled after their documented behaviour on a
  non-Windows build (`runtime.GOOS ≠ "windows"`, separator `/`).
* Diagnostic printing (`fmt.Print*`, `log.Printf`) has no effect on the
  session and is left out.
-/

namespace AdbClient

/-! ## Strings as byte sequences -/

/-- A Go string: its bytes, in order. -/
abbrev GoString := List Nat

/-- The replacement rune `utf8.RuneError` (U+FFFD). -/
def RuneError : Nat := 0xFFFD

/-- Model of `utf8.EncodeRune` / `utf8.AppendRune`: the UTF-8 bytes of a rune;
surrogates and out-of-range values are encoded as `RuneError`. -/
def EncodeRune (r : Nat) : GoString :=
  if r < 0x80 then [r]
  else if r < 0x800 then [0xC0 + r / 64, 0x80 + r % 64]
  else if (0xD800 ≤ r ∧ r < 0xE000) ∨ 0x10FFFF < r then [0xEF, 0xBF, 0xBD]
  else if r < 0x10000 then [0xE0 + r / 4096, 0x80 + r / 64 % 64, 0x80 + r % 64]
  else [0xF0 + r / 262144, 0x80 + r / 4096 % 64, 0x80 + r / 64 % 64, 0x80 + r % 64]

/-- The bytes of a text: the UTF-8 encoding of its characters. -/
def utf8 (cs : List Char) : GoString := cs.flatMap (fun ch => EncodeRune ch.toNat)

/-- A Go string literal. -/
def lit (s : String) : GoString := utf8 s.toList

/-- Model of `utf8.DecodeRune` / `utf8.DecodeRuneInString`: the first rune of
`p` and its width in bytes; `(RuneError, 1)` on an invalid encoding and
`(RuneError, 0)` on the empty string. -/
def DecodeRune (p : GoString) : Nat × Nat :=
  match p with
  | [] => (RuneError, 0)
  | p0 :: t =>
    if p0 < 0x80 then (p0, 1)
    else if p0 < 0xC2 ∨ 0xF4 < p0 then (RuneError, 1)
    else
      let sz := if p0 < 0xE0 then 2 else if p0 < 0xF0 then 3 else 4
      let lo := if p0 = 0xE0 then 0xA0 else if p0 = 0xF0 then 0x90 else 0x80
      let hi := if p0 = 0xED then 0x9F else if p0 = 0xF4 then 0x8F else 0xBF
      match t with
      | [] => (RuneError, 1)
      | b1 :: t1 =>
        if b1 < lo ∨ hi < b1 then (RuneError, 1)
        else if sz ≤ 2 then (p0 % 32 * 64 + b1 % 64, 2)
        else
          match t1 with
          | [] => (RuneError, 1)
          | b2 :: t2 =>
            if b2 < 0x80 ∨ 0xBF < b2 then (RuneError, 1)
            else if sz ≤ 3 then (p0 % 16 * 4096 + b1 % 64 * 64 + b2 % 64, 3)
            else
              match t2 with
              | [] => (RuneError, 1)
              | b3 :: _ =>
                if b3 < 0x80 ∨ 0xBF < b3 then (RuneError, 1)
                else (p0 % 8 * 262144 + b1 % 64 * 4096 + b2 % 64 * 64 + b3 % 64, 4)

/-- Model of `utf8.RuneStart`: the byte is not a continuation byte. -/
def RuneStart (b : Nat) : Bool := !(0x80 ≤ b && b < 0xC0)

/-- The backward scan of `utf8.DecodeLastRuneInString`: starting at index
`start`, step left while `start ≥ lim` until a byte that can start a rune. -/
def lastRuneStart (s : GoString) (lim : Int) : Nat → Int → Int
  | 0, start => start
  | k + 1, start =>
    if lim ≤ start then
      if RuneStart (s.getD start.toNat 0) then start else lastRuneStart s lim k (start - 1)
    else start

/-- Model of `utf8.DecodeLastRuneInString`: the last rune of `s` and its
width. -/
def DecodeLastRune (s : GoString) : Nat × Nat :=
  match s.getLast? with
  | none => (RuneError, 0)
  | some last =>
    if last < 0x80 then (last, 1)
    else
      let stop : Int := s.length
      let lim : Int := max (stop - 4) 0
      let start := max (lastRuneStart s lim 4 (stop - 2)) 0
      let (r, size) := DecodeRune (s.drop start.toNat)
      if start + size ≠ stop then (RuneError, 1) else (r, size)

/-- Model of `unicode.IsSpace`: the Unicode White_Space property. -/
def IsSpace (r : Nat) : Bool :=
  (0x09 ≤ r && r ≤ 0x0D) || r = 0x20 || r = 0x85 || r = 0xA0 || r = 0x1680 ||
  (0x2000 ≤ r && r ≤ 0x200A) || r = 0x2028 || r = 0x2029 || r = 0x202F ||
  r = 0x205F || r = 0x3000

/-- Model of `strings.TrimLeftFunc`: drop leading runes satisfying `f`.  The
counter bounds the number of runes inspected; `s.length` is always enough. -/
def trimLeftLoop (f : Nat → Bool) : Nat → GoString → GoString
  | 0, s => s
  | k + 1, s =>
    match s with
    | [] => []
    | _ :: _ =>
      if f (DecodeRune s).1 then trimLeftLoop f k (s.drop (DecodeRune s).2) else s

/-- Model of `strings.TrimRightFunc`: drop trailing runes satisfying `f`. -/
def trimRightLoop (f : Nat → Bool) : Nat → GoString → GoString
  | 0, s => s
  | k + 1, s =>
    match s with
    | [] => []
    | _ :: _ =>
      if f (DecodeLastRune s).1 then
        trimRightLoop f k (s.take (s.length - (DecodeLastRune s).2))
      else s

/-- Model of `strings.TrimSpace`: `s` without leading and trailing white
space (Go's ASCII fast path computes the same slice). -/
def TrimSpace (s : GoString) : GoString :=
  let t := trimLeftLoop IsSpace s.length s
  trimRightLoop IsSpace t.length t

/-- Model of `strings.HasPrefix`. -/
def HasPrefix (s pre : GoString) : Bool := pre.isPrefixOf s

/-- Model of `strings.HasSuffix`. -/
def HasSuffix (s suf : GoString) : Bool := suf.isSuffixOf s

/-- Model of `strings.TrimSuffix`: `s` without the given trailing suffix, or
`s` itself when it does not end with it. -/
def TrimSuffix (s suf : GoString) : GoString :=
  if HasSuffix s suf then s.take (s.length - suf.length) else s

/-- Model of `strings.Replace(s, old, new, 1)`: the first occurrence of `old`
replaced by `new`. -/
def replaceFirst (old new : GoString) : GoString → GoString
  | [] => if old = [] then new else []
  | b :: t =>
    if old.isPrefixOf (b :: t) then new ++ (b :: t).drop old.length
    else b :: replaceFirst old new t

/-- Model of `strings.Contains`: `sub` occurs in `s`. -/
def Contains (s sub : GoString) : Prop := sub <:+: s

/-- Decimal digits of a natural number, as bytes (`%d`). -/
def formatNat (n : Nat) : GoString := (Nat.toDigits 10 n).map Char.toNat

/-- Model of the `%d` verb of `fmt.Sprintf` on an `int`. -/
def formatInt (i : Int) : GoString :=
  match i with
  | Int.ofNat n => formatNat n
  | Int.negSucc n => 0x2D :: formatNat (n + 1)

/-! ## `path/filepath` (separator `/`) -/

/-- The path separator `/`. -/
def Separator : Nat := 0x2F

/-- Model of `filepath.IsAbs`: the path starts with the separator. -/
def IsAbs (path : GoString) : Bool := HasPrefix path [Separator]

/-- The elements of a path: the byte runs between separators. -/
def splitPath (path : GoString) : List GoString := path.splitOn Separator

/-- One element of the scan of `filepath.Clean`.  `out` holds the elements
kept so far, last one first.  Empty and `.` elements are dropped; a `..`
element removes the last kept element when there is one that is not itself
`..`, is dropped at the root of a rooted path, and is kept otherwise. -/
def cleanStep (rooted : Bool) (out : List GoString) (e : GoString) : List GoString :=
  if e = [] ∨ e = lit "." then out
  else if e = lit ".." then
    match out with
    | [] => if rooted then [] else [e]
    | top :: below => if top = lit ".." then e :: out else below
  else e :: out

/-- Model of `strings.Join(elems, "/")`: the elements written one after the
other with a separator between them. -/
def joinSep (elems : List GoString) : GoString := [Separator].intercalate elems

/-- Model of `filepath.Clean`: the shortest equivalent path by lexical
processing. -/
def Clean (path : GoString) : GoString :=
  if path = [] then lit "."
  else
    let rooted := IsAbs path
    let body := joinSep ((splitPath path).foldl (cleanStep rooted) []).reverse
    if rooted then Separator :: body
    else if body = [] then lit "." else body

/-- Model of `filepath.Join`: the elements from the first non-empty one on,
joined with separators and cleaned; empty when every element is empty. -/
def Join : List GoString → GoString
  | [] => []
  | e :: es => if e = [] then Join es else Clean (joinSep (e :: es))

/-- Model of `filepath.Base`: the last element of the path. -/
def Base (path : GoString) : GoString :=
  if path = [] then lit "."
  else
    let stripped := (path.reverse.dropWhile (fun b => b = Separator)).reverse
    let last := (stripped.reverse.takeWhile (fun b => b ≠ Separator)).reverse
    if last = [] then [Separator] else last

/-! ## `encoding/json` -/

/-- A decoded JSON value, as `json.Unmarshal` stores it in an `interface{}`:
`nil`, `bool`, `float64` (kept as the text of the number, which the program
never inspects), `string`, `[]interface{}` and `map[string]interface{}` (its
entries, one per key). -/
inductive JValue where
  | null
  | bool (b : Bool)
  | number (text : GoString)
  | str (s : GoString)
  | array (elems : List JValue)
  | object (fields : List (GoString × JValue))

/-- Assignment `m[k] = v` on a map held as a list of entries. -/
def mapSet (m : List (GoString × JValue)) (k : GoString) (v : JValue) :
    List (GoString × JValue) :=
  match m with
  | [] => [(k, v)]
  | (k', v') :: t => if k' = k then (k, v) :: t else (k', v') :: mapSet t k v

/-- Lookup `m[k]` on a map held as a list of entries. -/
def mapGet (m : List (GoString × JValue)) (k : GoString) : Option JValue :=
  match m with
  | [] => none
  | (k', v') :: t => if k' = k then some v' else mapGet t k

/-- The digit `hex[n]` of `"0123456789abcdef"`. -/
def hexDigit (n : Nat) : Nat := if n < 10 then 0x30 + n else 0x57 + n

/-- The table `htmlSafeSet` of `encoding/json`: the ASCII bytes written
without escaping. -/
def htmlSafe (b : Nat) : Bool :=
  0x20 ≤ b && b < 0x80 && b != 0x22 && b != 0x5C && b != 0x3C && b != 0x3E && b != 0x26

/-- One iteration of the loop of `appendString` (with `escapeHTML` set, as
`json.Marshal` does): the bytes written for the first byte or rune of a
non-empty `src`, and the number of source bytes consumed. -/
def appendStringStep (src : GoString) : GoString × Nat :=
  match src with
  | [] => ([], 0)
  | b :: _ =>
    if b < 0x80 then
      if htmlSafe b then ([b], 1)
      else if b = 0x5C ∨ b = 0x22 then ([0x5C, b], 1)
      else if b = 0x08 then (lit "\\b", 1)
      else if b = 0x0C then (lit "\\f", 1)
      else if b = 0x0A then (lit "\\n", 1)
      else if b = 0x0D then (lit "\\r", 1)
      else if b = 0x09 then (lit "\\t", 1)
      else (lit "\\u00" ++ [hexDigit (b / 16), hexDigit (b % 16)], 1)
    else
      let (c, size) := DecodeRune src
      if c = RuneError ∧ size = 1 then (lit "\\ufffd", 1)
      else if c = 0x2028 ∨ c = 0x2029 then (lit "\\u202" ++ [hexDigit (c % 16)], size)
      else (src.take size, size)

/-- The loop of `appendString`; the counter bounds the number of iterations
and `src.length` is always enough. -/
def appendStringLoop : Nat → GoString → GoString
  | 0, _ => []
  | k + 1, src =>
    match src with
    | [] => []
    | _ :: _ =>
      (appendStringStep src).1 ++ appendStringLoop k (src.drop (appendStringStep src).2)

/-- Model of `appendString` of `encoding/json`: `src` as a JSON string
literal, invalid UTF-8 replaced by `\ufffd`. -/
def appendString (src : GoString) : GoString :=
  0x22 :: appendStringLoop src.length src ++ [0x22]

/-- Model of `json.Marshal` on the value
`[]interface{}{name, map[string]interface{}{key: val}}` with string `name`
and `val`; marshalling such a value cannot fail. -/
def marshalEvent (name key val : GoString) : GoString :=
  lit "[" ++ appendString name ++ lit "," ++ lit "\x7b" ++ appendString key ++ lit ":" ++
    appendString val ++ lit "\x7d" ++ lit "]"

/-- Value of a hexadecimal digit, as in `getu4`. -/
def hexVal (c : Nat) : Option Nat :=
  if 0x30 ≤ c ∧ c ≤ 0x39 then some (c - 0x30)
  else if 0x61 ≤ c ∧ c ≤ 0x66 then some (c - 0x61 + 10)
  else if 0x41 ≤ c ∧ c ≤ 0x46 then some (c - 0x41 + 10)
  else none

/-- Model of `getu4`: the rune of a leading `\uXXXX` escape, `none` when
`s` does not start with one. -/
def getu4 (s : GoString) : Option Nat :=
  match s with
  | b0 :: b1 :: a :: b :: c :: d :: _ =>
    if b0 = 0x5C ∧ b1 = 0x75 then
      match hexVal a, hexVal b, hexVal c, hexVal d with
      | some a, some b, some c, some d => some (((a * 16 + b) * 16 + c) * 16 + d)
      | _, _, _, _ => none
    else none
  | _ => none

/-- One iteration of the loop of `unquoteBytes` inside a string literal:
the decoded bytes of the next byte, rune or escape of `s`, and the rest of the
input; `none` where the JSON scanner rejects the literal. -/
def unquoteStep (s : GoString) : Option (GoString × GoString) :=
  match s with
  | [] => none
  | c :: t =>
    if c = 0x5C then
      match t with
      | [] => none
      | e :: t1 =>
        if e = 0x22 ∨ e = 0x5C ∨ e = 0x2F then some ([e], t1)
        else if e = 0x62 then some ([0x08], t1)
        else if e = 0x66 then some ([0x0C], t1)
        else if e = 0x6E then some ([0x0A], t1)
        else if e = 0x72 then some ([0x0D], t1)
        else if e = 0x74 then some ([0x09], t1)
        else if e = 0x75 then
          match getu4 s with
          | none => none
          | some rr =>
            if 0xD800 ≤ rr ∧ rr < 0xE000 then
              match getu4 (s.drop 6) with
              | some rr1 =>
                if rr < 0xDC00 ∧ 0xDC00 ≤ rr1 ∧ rr1 < 0xE000 then
                  some (EncodeRune ((rr - 0xD800) * 1024 + (rr1 - 0xDC00) + 0x10000),
                    s.drop 12)
                else some (EncodeRune RuneError, s.drop 6)
              | none => some (EncodeRune RuneError, s.drop 6)
            else some (EncodeRune rr, s.drop 6)
        else none
    else if c = 0x22 ∨ c < 0x20 then none
    else if c < 0x80 then some ([c], t)
    else some (EncodeRune (DecodeRune s).1, s.drop (DecodeRune s).2)

/-- The loop of `unquoteBytes`, up to the closing quote: the decoded string
and the input after the quote.  The counter bounds the number of iterations;
`s.length + 1` is always enough. -/
def unquoteLoop : Nat → GoString → Option (GoString × GoString)
  | 0, _ => none
  | k + 1, s =>
    match s with
    | [] => none
    | c :: t =>
      if c = 0x22 then some ([], t)
      else
        match unquoteStep (c :: t) with
        | none => none
        | some (out, rest) =>
          match unquoteLoop k rest with
          | none => none
          | some (d, r) => some (out ++ d, r)

/-- A JSON string literal whose opening quote has been read: its decoded
value and the input after its closing quote. -/
def parseString (s : GoString) : Option (GoString × GoString) :=
  unquoteLoop (s.length + 1) s

/-- JSON white space, as the scanner's `isSpace`. -/
def isJSONSpace (b : Nat) : Bool := b = 0x20 || b = 0x09 || b = 0x0D || b = 0x0A

/-- Skip JSON white space. -/
def skipSpace (s : GoString) : GoString := s.dropWhile isJSONSpace

/-- An ASCII decimal digit. -/
def isDigit (b : Nat) : Bool := 0x30 ≤ b && b ≤ 0x39

/-- Value of a run of decimal digits. -/
def digitsVal (ds : GoString) : Nat := ds.foldl (fun acc d => acc * 10 + (d - 0x30)) 0

/-- Whether the number `digits × 10^e` rounds to an infinite `float64`, which
is when `strconv.ParseFloat` reports a range error and `Unmarshal` fails: the
value is at least `2^1024 - 2^970`, half-way between the largest finite value
and `2^1024`. -/
def floatOverflows (digits : Nat) (e : Int) : Bool :=
  match e with
  | Int.ofNat n => decide (2 ^ 1024 - 2 ^ 970 ≤ digits * 10 ^ n)
  | Int.negSucc n => decide ((2 ^ 1024 - 2 ^ 970) * 10 ^ (n + 1) ≤ digits)

/-- The integer part of a JSON number: `0`, or a non-zero digit followed by
digits. -/
def scanInt (s : GoString) : Option (GoString × GoString) :=
  match s with
  | [] => none
  | d :: t =>
    if d = 0x30 then some ([d], t)
    else if isDigit d then some (d :: t.takeWhile isDigit, t.dropWhile isDigit)
    else none

/-- The optional fraction of a JSON number: its digits (empty when absent). -/
def scanFrac (s : GoString) : Option (GoString × GoString) :=
  match s with
  | [] => some ([], [])
  | c :: t =>
    if c = 0x2E then
      if t.takeWhile isDigit = [] then none
      else some (t.takeWhile isDigit, t.dropWhile isDigit)
    else some ([], c :: t)

/-- Value of the digits of an exponent as `strconv` accumulates it: digits
are taken in while the value is below 10000, later ones are ignored. -/
def expVal (ds : GoString) : Nat :=
  ds.foldl (fun e d => if e < 10000 then e * 10 + (d - 0x30) else e) 0

/-- The optional exponent of a JSON number: its text, its value, and the rest
of the input. -/
def scanExp (s : GoString) : Option (GoString × Int × GoString) :=
  match s with
  | [] => some ([], 0, [])
  | c :: t =>
    if c = 0x65 ∨ c = 0x45 then
      match t with
      | [] => none
      | sg :: t1 =>
        if sg = 0x2B ∨ sg = 0x2D then
          if t1.takeWhile isDigit = [] then none
          else some (c :: sg :: t1.takeWhile isDigit,
            (if sg = 0x2D then -1 else 1) * (expVal (t1.takeWhile isDigit) : Int),
            t1.dropWhile isDigit)
        else if t.takeWhile isDigit = [] then none
        else some (c :: t.takeWhile isDigit, (expVal (t.takeWhile isDigit) : Int),
          t.dropWhile isDigit)
    else some ([], 0, c :: t)

/-- A JSON number: its text and the rest of the input; `none` on a syntax
error and on a value out of the `float64` range. -/
def parseNumber (s : GoString) : Option (GoString × GoString) :=
  let sign : GoString := if s.head? = some 0x2D then [0x2D] else []
  match scanInt (s.drop sign.length) with
  | none => none
  | some (ip, r1) =>
    match scanFrac r1 with
    | none => none
    | some (fp, r2) =>
      match scanExp r2 with
      | none => none
      | some (et, ev, r3) =>
        if floatOverflows (digitsVal (ip ++ fp)) (ev - fp.length) then none
        else some (sign ++ ip ++ (if fp = [] then [] else 0x2E :: fp) ++ et, r3)

/-- The elements of a non-empty JSON array after `[`, up to and including
`]`; `pv` reads one value.  The counter bounds the number of elements;
`s.length + 1` is always enough. -/
def parseElems (pv : GoString → Option (JValue × GoString)) :
    Nat → GoString → Option (List JValue × GoString)
  | 0, _ => none
  | k + 1, s =>
    match pv s with
    | none => none
    | some (v, r) =>
      match skipSpace r with
      | [] => none
      | c :: r1 =>
        if c = 0x2C then
          match parseElems pv k (skipSpace r1) with
          | none => none
          | some (vs, r2) => some (v :: vs, r2)
        else if c = 0x5D then some ([v], r1)
        else none

/-- The members of a non-empty JSON object after `{`, up to and including
`}`, stored into the map `acc` in order (a repeated key keeps the last value);
`pv` reads one value. -/
def parseMembers (pv : GoString → Option (JValue × GoString)) :
    Nat → GoString → List (GoString × JValue) → Option (List (GoString × JValue) × GoString)
  | 0, _, _ => none
  | k + 1, s, acc =>
    match s with
    | [] => none
    | q :: t =>
      if q = 0x22 then
        match parseString t with
        | none => none
        | some (key, r) =>
          match skipSpace r with
          | [] => none
          | c :: r1 =>
            if c = 0x3A then
              match pv (skipSpace r1) with
              | none => none
              | some (v, r2) =>
                match skipSpace r2 with
                | [] => none
                | c2 :: r3 =>
                  if c2 = 0x2C then parseMembers pv k (skipSpace r3) (mapSet acc key v)
                  else if c2 = 0x7D then some (mapSet acc key v, r3)
                  else none
            else none
      else none

/-- The scanner's `maxNestingDepth`: arrays and objects nested deeper are
rejected. -/
def maxNestingDepth : Nat := 10000

/-- A JSON value that is not an array or object, at the head of `s`: a
string, `true`, `false`, `null` or a number. -/
def parseScalar (s : GoString) : Option (JValue × GoString) :=
  match s with
  | [] => none
  | c :: t =>
    if c = 0x22 then
      match parseString t with
      | none => none
      | some (v, r) => some (JValue.str v, r)
    else if (lit "true").isPrefixOf s then some (JValue.bool true, s.drop 4)
    else if (lit "false").isPrefixOf s then some (JValue.bool false, s.drop 5)
    else if (lit "null").isPrefixOf s then some (JValue.null, s.drop 4)
    else
      match parseNumber s with
      | none => none
      | some (n, r) => some (JValue.number n, r)

/-- One JSON value at the head of `s` (white space already skipped).  `inner`
reads a value one level of nesting further down, and is `none` when the
nesting limit is reached, in which case an array or object is an error. -/
def parseValueWith (inner : Option (GoString → Option (JValue × GoString))) (s : GoString) :
    Option (JValue × GoString) :=
  match s with
  | [] => none
  | c :: t =>
    if c = 0x5B then
      match inner with
      | none => none
      | some pv =>
        match skipSpace t with
        | [] => none
        | c1 :: r =>
          if c1 = 0x5D then some (JValue.array [], r)
          else
            match parseElems pv (r.length + 2) (c1 :: r) with
            | none => none
            | some (vs, r1) => some (JValue.array vs, r1)
    else if c = 0x7B then
      match inner with
      | none => none
      | some pv =>
        match skipSpace t with
        | [] => none
        | c1 :: r =>
          if c1 = 0x7D then some (JValue.object [], r)
          else
            match parseMembers pv (r.length + 2) (c1 :: r) [] with
            | none => none
            | some (m, r1) => some (JValue.object m, r1)
    else parseScalar s

/-- One JSON value at the head of `s` (white space already skipped), with
`depth` further levels of nesting allowed: the value and the rest of the
input, `none` on any error. -/
def parseValue : Nat → GoString → Option (JValue × GoString)
  | 0 => parseValueWith none
  | d + 1 => parseValueWith (some (parseValue d))

/-- Model of `json.Unmarshal(data, &v)` for `v` of type `[]interface{}`:
the decoded elements, `none` when `Unmarshal` returns an error (invalid JSON,
or a top-level value that is neither an array nor `null`).  A top-level
`null` leaves the slice nil. -/
def jsonUnmarshal (data : GoString) : Option (List JValue) :=
  match parseValue maxNestingDepth (skipSpace data) with
  | none => none
  | some (v, rest) =>
    if skipSpace rest ≠ [] then none
    else
      match v with
      | JValue.array vs => some vs
      | JValue.null => some []
      | _ => none

/-! ## The client: data model -/

/-- The Go struct `Config`. -/
structure Config where
  ServerURL : GoString
  /-- Either `"local"` or `"adb"`. -/
  CurrentMode : GoString
  CurrentDirectory : GoString
  ADBPath : GoString

/-- A call the session made: a command handed to the dispatcher
(`executeCommand`), to the local executor (`executeLocalCommand`) or to the
ADB shell proxy (`executeADBCommand`). -/
inductive Call where
  | dispatch (cmd : GoString)
  | localCmd (cmd : GoString)
  | adbCmd (cmd : GoString)

/-- The Go struct `Client`.  `conn` is `none` for a nil connection and
otherwise holds the frames written to it so far; `adbProcess` is `none` for a
nil process and otherwise tells whether its `ProcessState` is set (the process
is known to have exited); `adbStdin` holds what has been written to the child's
input; `adbStdout` is everything the child writes to its output.  `calls` is
the history of calls into the dispatcher and the two execution backends. -/
structure Client where
  config : Config
  conn : Option (List GoString)
  adbProcess : Option Bool
  adbStdin : Option (List GoString)
  adbStdout : Option GoString
  running : Bool
  calls : List Call

/-- What `exec.Cmd.CombinedOutput` returned and how long it took. -/
structure ShellResult where
  /-- The combined standard output and standard error. -/
  output : GoString
  /-- The text of the returned error, if any (start failure, non-zero exit). -/
  err : Option GoString
  /-- `ProcessState.ExitCode()`. -/
  exitCode : Int
  /-- Wall-clock time from the creation of the deadline context to the return
  of `CombinedOutput`, in milliseconds. -/
  elapsedMs : Nat

/-- The outside world as one call sees it. -/
structure Env where
  /-- `os.UserHomeDir()`; `none` on error. -/
  UserHomeDir : Option GoString
  /-- `os.Getwd()`; `none` on error. -/
  Getwd : Option GoString
  /-- `os.Stat(path)`: `none` on error, otherwise whether the path is a
  directory. -/
  Stat : GoString → Option Bool
  /-- Running the argument vector to completion in a directory; `none` when
  the process never exits. -/
  CombinedOutput : List GoString → GoString → Option ShellResult
  /-- Spawning `path shell` with pipes: `none` when a pipe or the start fails,
  otherwise the output the child produces. -/
  StartShell : GoString → Option GoString

/-- The constant `runtime.GOOS` of the build. -/
def GOOS : GoString := lit "linux"

/-- The `Config` literal built in `main`. -/
def initialConfig (serverURL currentDir adbPath : GoString) : Config :=
  { ServerURL := serverURL
    CurrentMode := lit "local"
    CurrentDirectory := currentDir
    ADBPath := adbPath }

/-- The Go function `NewClient`. -/
def NewClient (config : Config) : Client :=
  { config := config
    conn := none
    adbProcess := none
    adbStdin := none
    adbStdout := none
    running := true
    calls := [] }

/-! ## The client: operations -/

/-- The Go method `Client.sendMessage`: write one text frame, if connected. -/
def sendMessage (c : Client) (message : GoString) : Client :=
  match c.conn with
  | some frames => { c with conn := some (frames ++ [message]) }
  | none => c

/-- The frame `sendOutput` builds: `"42"` followed by the JSON of
`["output_from_client", {"output": output}]`. -/
def outputFrame (output : GoString) : GoString :=
  lit "42" ++ marshalEvent (lit "output_from_client") (lit "output") output

/-- The Go method `Client.sendOutput`. -/
def sendOutput (c : Client) (output : GoString) : Client :=
  sendMessage c (outputFrame output)

/-- The Go method `Client.getPrompt`. -/
def getPrompt (c : Client) : GoString :=
  if c.config.CurrentMode = lit "local" then
    lit "local:" ++ Base c.config.CurrentDirectory ++ lit "$ "
  else lit "adb$ "

/-- The welcome text built in `Client.Connect`. -/
def welcome (c : Client) : GoString :=
  lit "Multi-Terminal Remote Console (Go Client)\nMode: " ++ c.config.CurrentMode ++
    lit "\nCommands: 'mode local'" ++
    (if c.config.ADBPath ≠ [] then lit ", 'mode adb'" else []) ++
    lit ", 'help'\n" ++ getPrompt c

/-- The Go method `Client.Connect` after a successful dial: the connect frame
`40`, then the welcome text as an output event. -/
def Connect (c : Client) : Client :=
  let c1 := sendMessage { c with conn := some [] } (lit "40")
  sendOutput c1 (welcome c1)

/-- Model of `filepath.Abs`: an absolute path is cleaned, a relative one is
joined to the process's working directory. -/
def Abs (env : Env) (path : GoString) : Option GoString :=
  if IsAbs path then some (Clean path)
  else
    match env.Getwd with
    | some wd => some (Join [wd, path])
    | none => none

/-- The path a `cd` command names, resolved as in `executeLocalCommand`. -/
def resolveCdPath (env : Env) (c : Client) (path : GoString) : GoString :=
  if path = [] then
    match env.UserHomeDir with
    | some homeDir => homeDir
    | none => path
  else if HasPrefix path (lit "~") then
    match env.UserHomeDir with
    | some homeDir => replaceFirst (lit "~") homeDir path
    | none => path
  else if !IsAbs path then Join [c.config.CurrentDirectory, path]
  else path

/-- The deadline of `context.WithTimeout(c.ctx, 30*time.Second)`, in
milliseconds. -/
def deadlineMs : Nat := 30 * 1000

/-- The Go method `Client.executeLocalCommand`: the session after the call and
the returned text; `none` when the call never returns. -/
def executeLocalCommand (env : Env) (c0 : Client) (cmd : GoString) :
    Option (Client × GoString) :=
  let c := { c0 with calls := c0.calls ++ [Call.localCmd cmd] }
  if HasPrefix cmd (lit "cd ") then
    let path := resolveCdPath env c (TrimSpace (cmd.drop 3))
    match env.Stat path with
    | some true =>
      match Abs env path with
      | some absPath =>
        some ({ c with config := { c.config with CurrentDirectory := absPath } },
          lit "Changed directory to: " ++ absPath)
      | none => some (c, lit "cd: " ++ path ++ lit ": No such file or directory")
    | _ => some (c, lit "cd: " ++ path ++ lit ": No such file or directory")
  else
    let argv :=
      if GOOS = lit "windows" then [lit "cmd", lit "/C", cmd] else [lit "sh", lit "-c", cmd]
    match env.CombinedOutput argv c.config.CurrentDirectory with
    | none => none
    | some res =>
      match res.err with
      | some e =>
        if deadlineMs ≤ res.elapsedMs then some (c, lit "Command timed out (30s limit)")
        else some (c, lit "Error executing command: " ++ e ++ lit "\nOutput: " ++ res.output)
      | none =>
        if res.output.length = 0 then
          some (c, lit "Command executed (exit code: " ++ formatInt res.exitCode ++ lit ")")
        else some (c, res.output)

/-- The Go method `Client.startADBShell`: on success the process and its pipes
are registered (and the output reader is started). -/
def startADBShell (env : Env) (c : Client) : Client × Bool :=
  match env.StartShell c.config.ADBPath with
  | none => (c, false)
  | some out =>
    ({ c with adbProcess := some false, adbStdin := some [], adbStdout := some out }, true)

/-- The write `c.adbStdin.Write([]byte(cmd + "\n"))`, if the pipe is set. -/
def writeStdin (c : Client) (cmd : GoString) : Client :=
  match c.adbStdin with
  | some written => { c with adbStdin := some (written ++ [cmd ++ lit "\n"]) }
  | none => c

/-- The Go method `Client.executeADBCommand`. -/
def executeADBCommand (env : Env) (c0 : Client) (cmd : GoString) : Client :=
  let c := { c0 with calls := c0.calls ++ [Call.adbCmd cmd] }
  if c.adbProcess = none ∨ c.adbProcess = some true then
    match startADBShell env c with
    | (c1, false) => sendOutput c1 (lit "Failed to start ADB shell\n" ++ getPrompt c1)
    | (c1, true) => writeStdin c1 cmd
  else writeStdin c cmd

/-- The text of the `help` command. -/
def helpText (c : Client) : GoString :=
  lit "Available commands:\n- mode local: Switch to local terminal mode" ++
    (if c.config.ADBPath ≠ [] then lit "\n- mode adb: Switch to ADB shell mode" else []) ++
    lit "\n- help: Show this help\n- Any system command (in local mode)" ++
    (if c.config.ADBPath ≠ [] then lit "\n- Any ADB shell command (in ADB mode)" else [])

/-- The end of `executeCommand`: a non-empty response is sent with a newline
and a fresh prompt appended. -/
def sendResponse (c : Client) (response : GoString) : Client :=
  if response ≠ [] then sendOutput c (response ++ lit "\n" ++ getPrompt c) else c

/-- The Go method `Client.executeCommand`; `none` when the call never
returns. -/
def executeCommand (env : Env) (c0 : Client) (cmd0 : GoString) : Option Client :=
  let cmd := TrimSpace cmd0
  let c := { c0 with calls := c0.calls ++ [Call.dispatch cmd] }
  if cmd = lit "mode local" then
    let c1 := { c with config := { c.config with CurrentMode := lit "local" } }
    some (sendResponse c1 (lit "Switched to local mode\n" ++ getPrompt c1))
  else if cmd = lit "mode adb" then
    if c.config.ADBPath = [] then
      some (sendResponse c (lit "ADB not available. Please install ADB first.\n" ++ getPrompt c))
    else
      let c1 := { c with config := { c.config with CurrentMode := lit "adb" } }
      some (sendResponse c1 (lit "Switched to ADB mode\n" ++ getPrompt c1))
  else if cmd = lit "help" then some (sendResponse c (helpText c))
  else if cmd = lit "pwd" then
    if c.config.CurrentMode = lit "local" then some (sendResponse c c.config.CurrentDirectory)
    else some (executeADBCommand env c cmd)
  else if c.config.CurrentMode = lit "local" then
    match executeLocalCommand env c cmd with
    | none => none
    | some (c1, response) => some (sendResponse c1 response)
  else if c.config.ADBPath ≠ [] then some (executeADBCommand env c cmd)
  else some (sendResponse c (lit "ADB mode not available\n" ++ getPrompt c))

/-- The Go method `Client.handleEvent`. -/
def handleEvent (env : Env) (c : Client) (payload : GoString) : Option Client :=
  match jsonUnmarshal payload with
  | none => some c
  | some eventData =>
    match eventData with
    | [] => some c
    | JValue.str eventName :: args =>
      if eventName = lit "execute_command" then
        match args with
        | JValue.object cmdData :: _ =>
          match mapGet cmdData (lit "command") with
          | some (JValue.str cmd) => executeCommand env c cmd
          | _ => some c
        | _ => some c
      else some c
    | _ :: _ => some c

/-- The Go method `Client.handleSocketIOMessage`. -/
def handleSocketIOMessage (env : Env) (c : Client) (data : GoString) : Option Client :=
  match data with
  | [] => some c
  | msgType :: payload =>
    if msgType = 0x30 then some c
    else if msgType = 0x32 then handleEvent env c payload
    else some c

/-- The Go method `Client.processMessage`. -/
def processMessage (env : Env) (c : Client) (message : GoString) : Option Client :=
  match message with
  | [] => some c
  | m0 :: rest =>
    if m0 = 0x30 then some c
    else if m0 = 0x32 then some (sendMessage c (lit "3"))
    else if m0 = 0x34 then
      if message.length > 1 then handleSocketIOMessage env c rest else some c
    else some c

/-- Model of `bufio.Reader.ReadString(delim)` on the unread part of a stream:
the bytes up to and including the first `delim`, the part left unread, and
whether an error is returned (the stream ended before a `delim`). -/
def ReadString (delim : Nat) : GoString → GoString × GoString × Bool
  | [] => ([], [], true)
  | b :: t =>
    if b = delim then ([b], t, false)
    else ((b :: (ReadString delim t).1), (ReadString delim t).2.1, (ReadString delim t).2.2)

/-- The loop of `Client.readADBOutput` on the unread part of the child's
output.  The counter bounds the number of iterations; the length of the stream
plus one is always enough. -/
def readADBOutputLoop : Nat → Client → GoString → Client
  | 0, c, _ => c
  | k + 1, c, unread =>
    if c.running ∧ c.adbProcess = some false then
      let r := ReadString 0x0A unread
      if r.2.2 then c
      else
        let line := TrimSuffix (TrimSuffix r.1 (lit "\n")) (lit "\r")
        readADBOutputLoop k (if line ≠ [] then sendOutput c line else c) r.2.1
    else c

/-- The Go method `Client.readADBOutput`, run to its end on the child's
output stream; `none` when it would read from a nil stream. -/
def readADBOutput (c : Client) : Option Client :=
  match c.adbStdout with
  | some stream => some (readADBOutputLoop (stream.length + 1) c stream)
  | none => if c.running ∧ c.adbProcess = some false then none else some c

/-- A sequence of `executeCommand` calls, each in the world it finds;
`none` when one of them never returns. -/
def runCommands : List (Env × GoString) → Client → Option Client
  | [], c => some c
  | (env, cmd) :: more, c =>
    match executeCommand env c cmd with
    | none => none
    | some c1 => runCommands more c1

/-- The path condition of the last branch of `executeCommand`, the one that
answers "ADB mode not available": the trimmed command is none of the four
built-in commands, the mode is not `"local"`, and no ADB path is configured. -/
def takesNotAvailableBranch (c : Client) (cmd0 : GoString) : Prop :=
  TrimSpace cmd0 ≠ lit "mode local" ∧ TrimSpace cmd0 ≠ lit "mode adb" ∧
  TrimSpace cmd0 ≠ lit "help" ∧ TrimSpace cmd0 ≠ lit "pwd" ∧
  c.config.CurrentMode ≠ lit "local" ∧ ¬ c.config.ADBPath ≠ []

/-- The frames written to the connection so far (none on a nil connection). -/
def written (c : Client) : List GoString := c.conn.getD []

/-- An inbound message that decodes to an event named `execute_command`:
frame kind `4`, envelope kind `2`, and a payload that parses as a JSON array
whose first element is that string. -/
def isExecuteCommandEvent (message : GoString) : Prop :=
  ∃ payload args, message = 0x34 :: 0x32 :: payload ∧
    jsonUnmarshal payload = some (JValue.str (lit "execute_command") :: args)

/-- The complete lines of a stream: the byte runs that end with a newline,
without that newline.  What follows the last newline is not a line. -/
def streamLines (stream : GoString) : List GoString := (stream.splitOn 0x0A).dropLast

/-- The texts the output reader forwards for a stream: each complete line
without one trailing carriage return, the empty ones left out. -/
def forwardedLines (stream : GoString) : List GoString :=
  ((streamLines stream).map (fun line => TrimSuffix line (lit "\r"))).filter (fun line => line ≠ [])

/-! ## Sample worlds and sessions -/

/-- A world with a home directory, a few directories, and a shell in which
every command fails at once with "not found". -/
def sampleEnv : Env :=
  { UserHomeDir := some (lit "/home/user")
    Getwd := some (lit "/home/user")
    Stat := fun path =>
      if path = lit "/" ∨ path = lit "/home" ∨ path = lit "/home/user" then some true
      else none
    CombinedOutput := fun _ _ =>
      some { output := lit "sh: 1: not found\n", err := some (lit "exit status 127"),
             exitCode := 127, elapsedMs := 5 }
    StartShell := fun _ => none }

/-- A connected session in local mode in `/home/user` with ADB found on the
search path. -/
def sampleClient : Client :=
  Connect (NewClient (initialConfig (lit "http://localhost:5001") (lit "/home/user") (lit "adb")))

/-- A connected session in ADB mode with no ADB path configured. -/
def strandedClient : Client :=
  { config :=
      { ServerURL := lit "http://localhost:5001", CurrentMode := lit "adb",
        CurrentDirectory := lit "/home/user", ADBPath := [] }
    conn := some []
    adbProcess := none
    adbStdin := none
    adbStdout := none
    running := true
    calls := [] }

/-- A connected session whose ADB shell child is alive and prints the one
line `echo:ls`. -/
def echoClient : Client :=
  { sampleClient with
    adbProcess := some false
    adbStdin := some [lit "ls\n"]
    adbStdout := some (lit "echo:ls\n") }

/-- A world in which the shell command runs for 31 seconds and then exits
with status 0 without having printed anything. -/
def slowEnv : Env :=
  { sampleEnv with
    CombinedOutput := fun _ _ =>
      some { output := [], err := none, exitCode := 0, elapsedMs := 31000 } }

/-- A world in which the shell command runs for 31 seconds, prints `done`, and
exits with status 0. -/
def slowEchoEnv : Env :=
  { sampleEnv with
    CombinedOutput := fun _ _ =>
      some { output := lit "done\n", err := none, exitCode := 0, elapsedMs := 31000 } }

/-- An element that `Clean` keeps in a rooted path: not empty, not `.`, not
`..`, and free of separators. -/
def GoodElem (e : GoString) : Prop :=
  e ≠ [] ∧ e ≠ lit "." ∧ e ≠ lit ".." ∧ Separator ∉ e

/-- A string that is valid UTF-8: the bytes of some text. -/
def ValidUTF8 (s : GoString) : Prop := ∃ cs : List Char, s = utf8 cs

/-- A Unicode scalar value: a code point that is not a surrogate. -/
def ValidRune (r : Nat) : Prop := r < 0xD800 ∨ (0xDFFF < r ∧ r < 0x110000)

/-- What `appendString` writes for one valid rune: the rune's own bytes, or
its escape. -/
def escapeRune (r : Nat) : GoString :=
  if r < 0x80 then (appendStringStep [r]).1
  else if r = 0x2028 ∨ r = 0x2029 then lit "\\u202" ++ [hexDigit (r % 16)]
  else EncodeRune r

/-- What `appendString` writes between the quotes for a text. -/
def escapeText (cs : List Char) : GoString := cs.flatMap (fun ch => escapeRune ch.toNat)

/-- A reader of one value that, when it succeeds, leaves less input than it
was given. -/
def Consumes (pv : GoString → Option (JValue × GoString)) : Prop :=
  ∀ s v r, pv s = some (v, r) → r.length < s.length

/-! ## Basic facts about sending -/

@[simp] theorem sendMessage_config (c : Client) (m : GoString) :
    (sendMessage c m).config = c.config := by
  unfold sendMessage; cases c.conn <;> rfl

@[simp] theorem sendMessage_calls (c : Client) (m : GoString) :
    (sendMessage c m).calls = c.calls := by
  unfold sendMessage; cases c.conn <;> rfl

@[simp] theorem sendOutput_config (c : Client) (o : GoString) :
    (sendOutput c o).config = c.config := by
  simp [sendOutput]

@[simp] theorem sendResponse_config (c : Client) (r : GoString) :
    (sendResponse c r).config = c.config := by
  unfold sendResponse; split <;> simp

theorem sendMessage_connected (c : Client) (m : GoString) (frames : List GoString)
    (h : c.conn = some frames) :
    sendMessage c m = { c with conn := some (frames ++ [m]) } := by
  unfold sendMessage; rw [h]

theorem trimSpace_mode_local : TrimSpace (lit "mode local") = lit "mode local" := by decide

theorem trimSpace_mode_adb : TrimSpace (lit "mode adb") = lit "mode adb" := by decide

theorem trimSpace_pwd : TrimSpace (lit "pwd") = lit "pwd" := by decide

/-! ## The built-in commands of the dispatcher -/

theorem executeCommand_mode_local (env : Env) (c : Client) :
    executeCommand env c (lit "mode local") =
      some (sendResponse
        { c with
          calls := c.calls ++ [Call.dispatch (lit "mode local")]
          config := { c.config with CurrentMode := lit "local" } }
        (lit "Switched to local mode\n" ++ getPrompt
          { c with
            calls := c.calls ++ [Call.dispatch (lit "mode local")]
            config := { c.config with CurrentMode := lit "local" } })) := by
  simp only [executeCommand, trimSpace_mode_local, if_true]

theorem executeCommand_mode_adb_unavailable (env : Env) (c : Client)
    (hp : c.config.ADBPath = []) :
    executeCommand env c (lit "mode adb") =
      some (sendResponse { c with calls := c.calls ++ [Call.dispatch (lit "mode adb")] }
        (lit "ADB not available. Please install ADB first.\n" ++ getPrompt
          { c with calls := c.calls ++ [Call.dispatch (lit "mode adb")] })) := by
  have hne : lit "mode adb" ≠ lit "mode local" := by decide
  simp only [executeCommand, trimSpace_mode_adb, if_neg hne, if_pos hp, if_true]

theorem executeCommand_mode_adb_available (env : Env) (c : Client)
    (hp : c.config.ADBPath ≠ []) :
    executeCommand env c (lit "mode adb") =
      some (sendResponse
        { c with
          calls := c.calls ++ [Call.dispatch (lit "mode adb")]
          config := { c.config with CurrentMode := lit "adb" } }
        (lit "Switched to ADB mode\n" ++ getPrompt
          { c with
            calls := c.calls ++ [Call.dispatch (lit "mode adb")]
            config := { c.config with CurrentMode := lit "adb" } })) := by
  have hne : lit "mode adb" ≠ lit "mode local" := by decide
  simp only [executeCommand, trimSpace_mode_adb, if_neg hne, if_neg hp, if_true]

/-! ## What the backends and the dispatcher leave alone -/

@[simp] theorem writeStdin_config (c : Client) (cmd : GoString) :
    (writeStdin c cmd).config = c.config := by
  unfold writeStdin; cases c.adbStdin <;> rfl

@[simp] theorem executeADBCommand_config (env : Env) (c : Client) (cmd : GoString) :
    (executeADBCommand env c cmd).config = c.config := by
  unfold executeADBCommand startADBShell
  simp only
  split
  · cases env.StartShell c.config.ADBPath <;> simp
  · simp

theorem executeLocalCommand_config (env : Env) (c c1 : Client) (cmd text : GoString)
    (h : executeLocalCommand env c cmd = some (c1, text)) :
    c1.config.ADBPath = c.config.ADBPath ∧ c1.config.CurrentMode = c.config.CurrentMode ∧
    c1.config.ServerURL = c.config.ServerURL := by
  unfold executeLocalCommand at h
  simp only at h
  split at h
  · split at h
    · split at h <;> simp only [Option.some.injEq, Prod.mk.injEq] at h <;>
        (obtain ⟨rfl, _⟩ := h; simp)
    · simp only [Option.some.injEq, Prod.mk.injEq] at h
      obtain ⟨rfl, _⟩ := h; simp
  · split at h
    · exact absurd h (by simp)
    · split at h <;> split at h <;> simp only [Option.some.injEq, Prod.mk.injEq] at h <;>
        (obtain ⟨rfl, _⟩ := h; simp)

/-- The dispatcher never touches the ADB path, and the mode after a call is
`"local"`, or `"adb"` with a configured ADB path, or what it was before. -/
theorem executeCommand_mode (env : Env) (c c1 : Client) (cmd : GoString)
    (h : executeCommand env c cmd = some c1) :
    c1.config.ADBPath = c.config.ADBPath ∧
    (c1.config.CurrentMode = lit "local" ∨
      (c1.config.CurrentMode = lit "adb" ∧ c.config.ADBPath ≠ []) ∨
      c1.config.CurrentMode = c.config.CurrentMode) := by
  unfold executeCommand at h
  simp only at h
  split_ifs at h with h1 h2 h3 h4 h5 h6 h7
  all_goals first
    | (cases hx : executeLocalCommand env
          { c with calls := c.calls ++ [Call.dispatch (TrimSpace cmd)] } (TrimSpace cmd) with
        | none => rw [hx] at h; exact absurd h (by simp)
        | some r =>
          obtain ⟨c2, text⟩ := r
          rw [hx] at h
          simp only [Option.some.injEq] at h
          subst h
          have := executeLocalCommand_config env _ c2 _ text hx
          simp only [sendResponse_config]
          exact ⟨this.1, Or.inr (Or.inr this.2.1)⟩)
    | (simp only [Option.some.injEq] at h
       subst h
       simp_all)

theorem contains_append_right (s sub more : GoString) (h : Contains s sub) :
    Contains (s ++ more) sub := by
  obtain ⟨a, b, e⟩ := h
  exact ⟨a, b ++ more, by rw [← e]; simp only [List.append_assoc]⟩

/-- The invariant of the dispatcher: the mode is `"local"` or `"adb"`, and
`"adb"` only with a configured ADB path. -/
theorem runCommands_invariant (steps : List (Env × GoString)) :
    ∀ c c1 : Client, runCommands steps c = some c1 →
      (c.config.CurrentMode = lit "local" ∨
        (c.config.CurrentMode = lit "adb" ∧ c.config.ADBPath ≠ [])) →
      c1.config.ADBPath = c.config.ADBPath ∧
      (c1.config.CurrentMode = lit "local" ∨
        (c1.config.CurrentMode = lit "adb" ∧ c1.config.ADBPath ≠ [])) := by
  induction steps with
  | nil =>
    intro c c1 h hinv
    simp only [runCommands, Option.some.injEq] at h
    subst h
    exact ⟨rfl, hinv⟩
  | cons step more ih =>
    intro c c1 h hinv
    obtain ⟨env, cmd⟩ := step
    simp only [runCommands] at h
    cases hx : executeCommand env c cmd with
    | none => rw [hx] at h; exact absurd h (by simp)
    | some c2 =>
      rw [hx] at h
      have hm := executeCommand_mode env c c2 cmd hx
      have hinv2 : c2.config.CurrentMode = lit "local" ∨
          (c2.config.CurrentMode = lit "adb" ∧ c2.config.ADBPath ≠ []) := by
        rcases hm.2 with h1 | h1 | h1
        · exact Or.inl h1
        · exact Or.inr ⟨h1.1, by rw [hm.1]; exact h1.2⟩
        · rw [h1, hm.1]; exact hinv
      have := ih c2 c1 h hinv2
      exact ⟨by rw [this.1, hm.1], this.2⟩

/-- Every inbound message that is not an `execute_command` event is either a
ping, answered with the frame `3`, or has no effect at all. -/
theorem processMessage_of_not_execute (env : Env) (c : Client) (message : GoString)
    (h : ¬ isExecuteCommandEvent message) :
    processMessage env c message =
      some (if message.head? = some 0x32 then sendMessage c (lit "3") else c) := by
  cases message with
  | nil => simp [processMessage]
  | cons m0 data =>
    by_cases h0 : m0 = 0x30
    · subst h0; simp [processMessage]
    by_cases h2 : m0 = 0x32
    · subst h2; simp [processMessage]
    by_cases h4 : m0 = 0x34
    · subst h4
      cases data with
      | nil => simp [processMessage]
      | cons d0 payload =>
        by_cases k0 : d0 = 0x30
        · subst k0; simp [processMessage, handleSocketIOMessage]
        by_cases k2 : d0 = 0x32
        · subst k2
          have hev : handleEvent env c payload = some c := by
            unfold handleEvent
            cases hj : jsonUnmarshal payload with
            | none => rfl
            | some eventData =>
              cases eventData with
              | nil => rfl
              | cons e0 args =>
                cases e0 with
                | str name =>
                  by_cases hn : name = lit "execute_command"
                  · exact absurd ⟨payload, args, rfl, by rw [hj, hn]⟩ h
                  · simp only [if_neg hn]
                | _ => rfl
          simp [processMessage, handleSocketIOMessage, hev]
        · simp [processMessage, handleSocketIOMessage, k0, k2]
    · simp [processMessage, h0, h2, h4]

theorem outputFrame_ne_pong (s : GoString) : outputFrame s ≠ lit "3" := by
  intro h
  have : (outputFrame s).head? = (lit "3").head? := by rw [h]
  exact absurd this (by simp [outputFrame, lit, utf8, EncodeRune])

/-! ## The output reader -/

/-- What `ReadString` returns: either the stream holds no delimiter and the
read reports an error, or the stream is a delimiter-free line, the delimiter,
and a rest, and the read returns the line with its delimiter. -/
theorem ReadString_spec (d : Nat) (unread : GoString) :
    ((ReadString d unread).2.2 = true ∧ d ∉ unread) ∨
    ∃ line more, d ∉ line ∧ unread = line ++ d :: more ∧
      ReadString d unread = (line ++ [d], more, false) := by
  induction unread with
  | nil => exact Or.inl ⟨rfl, by simp⟩
  | cons b t ih =>
    by_cases hb : b = d
    · subst hb
      exact Or.inr ⟨[], t, by simp, rfl, by simp [ReadString]⟩
    · rcases ih with ⟨he, hn⟩ | ⟨line, more, hn, hu, hr⟩
      · refine Or.inl ⟨by simp [ReadString, hb, he], ?_⟩
        simp only [List.mem_cons, not_or]
        exact ⟨fun h => hb h.symm, hn⟩
      · refine Or.inr ⟨b :: line, more, ?_, by rw [hu]; rfl, by simp [ReadString, hb, hr]⟩
        simp only [List.mem_cons, not_or]
        exact ⟨fun h => hb h.symm, hn⟩

theorem streamLines_of_no_newline (unread : GoString) (h : 0x0A ∉ unread) :
    streamLines unread = [] := by
  unfold streamLines List.splitOn
  rw [List.splitOnP_eq_single]
  · rfl
  · intro x hx hp
    simp only [beq_iff_eq] at hp
    exact h (hp ▸ hx)

theorem streamLines_of_line (line more : GoString) (h : 0x0A ∉ line) :
    streamLines (line ++ 0x0A :: more) = line :: streamLines more := by
  unfold streamLines List.splitOn
  rw [List.splitOnP_first]
  · cases hs : List.splitOnP (fun x => x == 10) more with
    | nil => exact absurd hs (List.splitOnP_ne_nil _ _)
    | cons a t => rfl
  · intro x hx hp
    simp only [beq_iff_eq] at hp
    exact h (hp ▸ hx)
  · simp

theorem trimSuffix_newline (line : GoString) :
    TrimSuffix (line ++ [0x0A]) (lit "\n") = line := by
  have e : lit "\n" = [0x0A] := by decide
  have hs : HasSuffix (line ++ [0x0A]) [0x0A] = true := by
    unfold HasSuffix
    rw [List.isSuffixOf_iff_suffix]
    exact List.suffix_append _ _
  unfold TrimSuffix
  rw [e, if_pos hs]
  simp

/-- The reader loop, given enough iterations, forwards exactly the complete
lines of what is left to read, in order. -/
theorem readADBOutputLoop_spec (k : Nat) :
    ∀ (c : Client) (unread : GoString) (frames : List GoString),
      unread.length < k → c.running = true → c.adbProcess = some false →
      c.conn = some frames →
      readADBOutputLoop k c unread =
        { c with conn := some (frames ++ (forwardedLines unread).map outputFrame) } := by
  induction k with
  | zero => intro c unread frames hk; exact absurd hk (Nat.not_lt_zero _)
  | succ k ih =>
    intro c unread frames hk hrun hproc hconn
    obtain ⟨config, conn, adbProcess, adbStdin, adbStdout, running, calls⟩ := c
    simp only at hrun hproc hconn
    subst hrun hproc hconn
    rcases ReadString_spec 0x0A unread with ⟨he, hn⟩ | ⟨line, more, hn, hu, hr⟩
    · simp only [readADBOutputLoop, and_self, if_true, he]
      simp [forwardedLines, streamLines_of_no_newline unread hn]
    · have hlen : more.length < k := by
        rw [hu] at hk
        simp only [List.length_append, List.length_cons] at hk
        omega
      have hfw : forwardedLines unread =
          (if TrimSuffix line (lit "\r") ≠ [] then [TrimSuffix line (lit "\r")] else []) ++
            forwardedLines more := by
        rw [hu]
        unfold forwardedLines
        rw [streamLines_of_line line more hn]
        by_cases hl : TrimSuffix line (lit "\r") = []
        · simp [hl]
        · simp [hl]
      simp only [readADBOutputLoop, and_self, if_true, hr, Bool.false_eq_true, if_false,
        trimSuffix_newline]
      rw [hfw]
      by_cases hl : TrimSuffix line (lit "\r") = []
      · simp only [hl, ne_eq, not_true_eq_false, if_false, List.nil_append]
        exact ih _ more frames hlen rfl rfl rfl
      · simp only [hl, ne_eq, not_false_eq_true, if_true, sendOutput, sendMessage]
        rw [ih _ more (frames ++ [outputFrame (TrimSuffix line (lit "\r"))]) hlen rfl rfl rfl]
        simp

/-- Empty lines, a carriage return before the newline, and bytes after the
last newline: of the stream `a`, newline, newline, `b`, carriage return,
newline, `c` the reader forwards `a` and `b`. -/
theorem forwardedLines_example :
    forwardedLines (lit "a\n\nb\r\nc") = [lit "a", lit "b"] := by decide

/-! ## `filepath.Clean` on rooted paths -/

theorem splitOnP_elems (p : Nat → Bool) (xs : List Nat) :
    ∀ l ∈ xs.splitOnP p, ∀ x ∈ l, p x = false := by
  induction xs with
  | nil => intro l hl x hx; simp at hl; subst hl; simp at hx
  | cons a t ih =>
    intro l hl x hx
    rw [List.splitOnP_cons] at hl
    by_cases hp : p a = true
    · rw [if_pos hp] at hl
      rcases List.mem_cons.mp hl with h | h
      · subst h; simp at hx
      · exact ih l h x hx
    · rw [if_neg hp] at hl
      cases hs : List.splitOnP p t with
      | nil => exact absurd hs (List.splitOnP_ne_nil _ _)
      | cons h tl =>
        rw [hs] at hl ih
        simp only [List.modifyHead, List.mem_cons] at hl
        rcases hl with h1 | h1
        · subst h1
          rcases List.mem_cons.mp hx with h2 | h2
          · subst h2; simpa using hp
          · exact ih h (List.mem_cons_self _ _) x h2
        · exact ih l (List.mem_cons_of_mem _ h1) x hx

theorem splitPath_no_separator (path : GoString) :
    ∀ e ∈ splitPath path, Separator ∉ e := by
  intro e he hx
  have := splitOnP_elems (fun x => x == Separator) path e he Separator hx
  simp at this

theorem cleanStep_good (out : List GoString) (e : GoString)
    (hout : ∀ x ∈ out, GoodElem x) (he : Separator ∉ e) :
    ∀ x ∈ cleanStep true out e, GoodElem x := by
  unfold cleanStep
  by_cases h1 : e = [] ∨ e = lit "."
  · rw [if_pos h1]; exact hout
  · rw [if_neg h1]
    by_cases h2 : e = lit ".."
    · rw [if_pos h2]
      cases out with
      | nil => simp
      | cons top below =>
        have ht := (hout top (List.mem_cons_self _ _)).2.2.1
        simp only [if_neg ht]
        intro x hx
        exact hout x (List.mem_cons_of_mem _ hx)
    · rw [if_neg h2]
      intro x hx
      rcases List.mem_cons.mp hx with h | h
      · subst h
        exact ⟨fun h => h1 (Or.inl h), fun h => h1 (Or.inr h), h2, he⟩
      · exact hout x h

theorem foldl_cleanStep_good (es : List GoString) :
    ∀ out : List GoString, (∀ x ∈ out, GoodElem x) → (∀ e ∈ es, Separator ∉ e) →
      ∀ x ∈ es.foldl (cleanStep true) out, GoodElem x := by
  induction es with
  | nil => intro out hout _; exact hout
  | cons e t ih =>
    intro out hout hes
    simp only [List.foldl_cons]
    exact ih _ (cleanStep_good out e hout (hes e (List.mem_cons_self _ _)))
      (fun x hx => hes x (List.mem_cons_of_mem _ hx))

theorem foldl_cleanStep_of_good (rooted : Bool) (es : List GoString) :
    ∀ out : List GoString, (∀ e ∈ es, GoodElem e) →
      es.foldl (cleanStep rooted) out = es.reverse ++ out := by
  induction es with
  | nil => intro out _; rfl
  | cons e t ih =>
    intro out hes
    have he := hes e (List.mem_cons_self _ _)
    have hstep : cleanStep rooted out e = e :: out := by
      unfold cleanStep
      rw [if_neg (by rintro (h | h); exact he.1 h; exact he.2.1 h), if_neg he.2.2.1]
    simp only [List.foldl_cons, hstep, List.reverse_cons, List.append_assoc]
    rw [ih _ (fun x hx => hes x (List.mem_cons_of_mem _ hx))]
    simp

theorem foldl_cleanStep_empties (rooted : Bool) (pre : List GoString) (h : ∀ e ∈ pre, e = []) :
    ∀ out : List GoString, pre.foldl (cleanStep rooted) out = out := by
  induction pre with
  | nil => intro out; rfl
  | cons e t ih =>
    intro out
    have he : e = [] := h e (List.mem_cons_self _ _)
    simp only [List.foldl_cons]
    rw [show cleanStep rooted out e = out by simp [cleanStep, he]]
    exact ih (fun x hx => h x (List.mem_cons_of_mem _ hx)) out

theorem splitPath_rooted (es : List GoString) (hes : ∀ e ∈ es, GoodElem e) :
    ∃ pre, (splitPath (Separator :: joinSep es) = pre ++ es) ∧ ∀ e ∈ pre, e = [] := by
  unfold splitPath List.splitOn
  rw [List.splitOnP_cons]
  simp only [beq_self_eq_true, if_true]
  cases es with
  | nil => exact ⟨[[], []], by simp [joinSep, List.intercalate], by simp⟩
  | cons e t =>
    have := List.splitOn_intercalate (e :: t) Separator
      (fun l hl => (hes l hl).2.2.2) (by simp)
    unfold List.splitOn at this
    unfold joinSep
    rw [this]
    exact ⟨[[]], by simp, by simp⟩

/-- A rooted path made of kept elements is already clean. -/
theorem Clean_of_good (es : List GoString) (hes : ∀ e ∈ es, GoodElem e) :
    Clean (Separator :: joinSep es) = Separator :: joinSep es := by
  obtain ⟨pre, hsplit, hpre⟩ := splitPath_rooted es hes
  have hroot : IsAbs (Separator :: joinSep es) = true := by
    simp [IsAbs, HasPrefix]
  unfold Clean
  simp only [hroot, if_true, hsplit, List.foldl_append, foldl_cleanStep_empties true pre hpre,
    foldl_cleanStep_of_good true es [] hes, List.append_nil, List.reverse_reverse]
  simp

/-- Cleaning a rooted path yields the separator followed by kept elements. -/
theorem Clean_rooted (path : GoString) (h : IsAbs path = true) :
    ∃ es : List GoString, (∀ e ∈ es, GoodElem e) ∧ Clean path = Separator :: joinSep es := by
  have hne : path ≠ [] := by
    intro hp; rw [hp] at h; simp [IsAbs, HasPrefix] at h
  refine ⟨((splitPath path).foldl (cleanStep true) []).reverse, ?_, ?_⟩
  · intro e he
    exact foldl_cleanStep_good (splitPath path) [] (by simp) (splitPath_no_separator path) e
      (List.mem_reverse.mp he)
  · unfold Clean
    simp only [if_neg hne, h, if_true]

/-- On rooted paths `Clean` is idempotent. -/
theorem Clean_idempotent (path : GoString) (h : IsAbs path = true) :
    Clean (Clean path) = Clean path := by
  obtain ⟨es, hes, hc⟩ := Clean_rooted path h
  rw [hc]
  exact Clean_of_good es hes

theorem IsAbs_Clean (path : GoString) (h : IsAbs path = true) : IsAbs (Clean path) = true := by
  obtain ⟨es, _, hc⟩ := Clean_rooted path h
  rw [hc]
  simp [IsAbs, HasPrefix]

/-! ## `cd ..` -/

theorem splitPath_cons_separator (es : List GoString) (h : ∀ e ∈ es, Separator ∉ e)
    (hne : es ≠ []) : splitPath (Separator :: joinSep es) = [] :: es := by
  unfold splitPath List.splitOn
  rw [List.splitOnP_cons]
  simp only [beq_self_eq_true, if_true]
  have := List.splitOn_intercalate es Separator h hne
  unfold List.splitOn at this
  unfold joinSep
  rw [this]

theorem joinSep_append_singleton (es : List GoString) (e : GoString) (hne : es ≠ []) :
    joinSep (es ++ [e]) = joinSep es ++ Separator :: e := by
  unfold joinSep
  induction es with
  | nil => exact absurd rfl hne
  | cons a t ih =>
    cases t with
    | nil => simp [List.intercalate]
    | cons b u =>
      have := ih (by simp)
      simp only [List.intercalate, List.cons_append, List.intersperse_cons₂, List.flatten_cons,
        List.append_assoc] at this ⊢
      rw [this]

/-- The parent computed by `cd ..` is the lexical parent: in the directory
`/e1/.../en` the path `filepath.Join(D, "..")` is `/e1/.../e(n-1)`, and in the
root directory it is the root. -/
theorem Join_dotdot (es : List GoString) (hes : ∀ e ∈ es, GoodElem e) :
    Join [Separator :: joinSep es, lit ".."] = Separator :: joinSep es.dropLast := by
  have hdd : Separator ∉ lit ".." := by decide
  have hroot : ∀ t : GoString, IsAbs (Separator :: t) = true := by
    intro t; simp [IsAbs, HasPrefix]
  have hjoin : joinSep [Separator :: joinSep es, lit ".."] =
      Separator :: (joinSep es ++ Separator :: lit "..") := by
    simp [joinSep, List.intercalate]
  simp only [Join, if_neg (List.cons_ne_nil _ _), hjoin]
  by_cases hne : es = []
  · subst hne
    have e1 : (joinSep [] ++ Separator :: lit "..") = joinSep [[], lit ".."] := by
      simp [joinSep, List.intercalate]
    rw [e1]
    unfold Clean
    rw [if_neg (List.cons_ne_nil _ _)]
    simp only [hroot, if_true]
    rw [splitPath_cons_separator [[], lit ".."] (by
      intro e he
      simp only [List.mem_cons, List.mem_singleton, List.not_mem_nil, or_false] at he
      rcases he with h | h
      · subst h; simp
      · subst h; exact hdd) (by simp)]
    simp [cleanStep, joinSep, List.intercalate]
  · rw [← joinSep_append_singleton es (lit "..") hne]
    unfold Clean
    rw [if_neg (List.cons_ne_nil _ _)]
    simp only [hroot, if_true]
    rw [splitPath_cons_separator (es ++ [lit ".."]) (by
      intro e he
      rcases List.mem_append.mp he with h | h
      · exact (hes e h).2.2.2
      · simp only [List.mem_singleton] at h
        subst h; exact hdd) (by simp)]
    simp only [List.foldl_cons, List.foldl_append, List.foldl_nil]
    rw [show cleanStep true [] [] = [] by simp [cleanStep],
      foldl_cleanStep_of_good true es [] hes, List.append_nil]
    obtain ⟨front, last, rfl⟩ : ∃ front last, es = front ++ [last] :=
      ⟨es.dropLast, es.getLast hne, (List.dropLast_append_getLast hne).symm⟩
    have hl := hes last (by simp)
    have hdd2 : lit ".." ≠ [] ∧ lit ".." ≠ lit "." := by decide
    simp [cleanStep, hdd2.1, hdd2.2, hl.2.2.1]

theorem cd_dotdot_path (env : Env) (c : Client) :
    resolveCdPath env c (TrimSpace ((lit "cd ..").drop 3)) =
      Join [c.config.CurrentDirectory, lit ".."] := by
  have h1 : TrimSpace ((lit "cd ..").drop 3) = lit ".." := by decide
  have h2 : lit ".." ≠ [] := by decide
  have h3 : HasPrefix (lit "..") (lit "~") = false := by decide
  have h4 : IsAbs (lit "..") = false := by decide
  simp [resolveCdPath, h1, h2, h3, h4]

theorem Abs_Join_dotdot (env : Env) (dir : GoString) (h : IsAbs dir = true) :
    Abs env (Join [dir, lit ".."]) = some (Join [dir, lit ".."]) := by
  have hne : dir ≠ [] := by
    intro hp; rw [hp] at h; simp [IsAbs, HasPrefix] at h
  have hj : Join [dir, lit ".."] = Clean (joinSep [dir, lit ".."]) := by
    simp [Join, hne]
  have hr : IsAbs (joinSep [dir, lit ".."]) = true := by
    cases dir with
    | nil => exact absurd rfl hne
    | cons b t =>
      simp only [IsAbs, HasPrefix, List.isPrefixOf, Bool.and_true, beq_iff_eq] at h
      subst h
      simp [IsAbs, HasPrefix, joinSep, List.intercalate]
  unfold Abs
  rw [hj, if_pos (IsAbs_Clean _ hr), Clean_idempotent _ hr]

/-! ## UTF-8 -/

theorem Char_validRune (ch : Char) : ValidRune ch.toNat := by
  have h := ch.valid
  unfold ValidRune
  unfold UInt32.isValidChar Nat.isValidChar at h
  exact h

theorem EncodeRune_ascii (r : Nat) (h : r < 0x80) : EncodeRune r = [r] := by
  simp [EncodeRune, h]

theorem DecodeRune_two (p0 b1 : Nat) (more : GoString)
    (hp : 0xC2 ≤ p0 ∧ p0 < 0xE0) (h1 : 0x80 ≤ b1 ∧ b1 ≤ 0xBF) :
    DecodeRune (p0 :: b1 :: more) = (p0 % 32 * 64 + b1 % 64, 2) := by
  obtain ⟨hp1, hp2⟩ := hp
  obtain ⟨h1a, h1b⟩ := h1
  simp only [DecodeRune]
  rw [if_neg (by omega), if_neg (by omega)]
  simp only [hp2, if_true, show ¬ p0 = 0xE0 by omega, show ¬ p0 = 0xF0 by omega,
    show ¬ p0 = 0xED by omega, show ¬ p0 = 0xF4 by omega, if_false]
  rw [if_neg (by omega), if_pos (by omega)]

theorem DecodeRune_three (p0 b1 b2 : Nat) (more : GoString)
    (hp : 0xE0 ≤ p0 ∧ p0 < 0xF0)
    (h1 : (if p0 = 0xE0 then 0xA0 else 0x80) ≤ b1 ∧ b1 ≤ (if p0 = 0xED then 0x9F else 0xBF))
    (h2 : 0x80 ≤ b2 ∧ b2 ≤ 0xBF) :
    DecodeRune (p0 :: b1 :: b2 :: more) = (p0 % 16 * 4096 + b1 % 64 * 64 + b2 % 64, 3) := by
  obtain ⟨hp1, hp2⟩ := hp
  obtain ⟨h1a, h1b⟩ := h1
  obtain ⟨h2a, h2b⟩ := h2
  simp only [DecodeRune]
  rw [if_neg (by omega), if_neg (by omega)]
  simp only [show ¬ p0 < 0xE0 by omega, hp2, if_true, show ¬ p0 = 0xF0 by omega,
    show ¬ p0 = 0xF4 by omega, if_false]
  rw [if_neg (by omega), if_neg (by omega), if_neg (by omega), if_pos (by omega)]

theorem DecodeRune_four (p0 b1 b2 b3 : Nat) (more : GoString)
    (hp : 0xF0 ≤ p0 ∧ p0 ≤ 0xF4)
    (h1 : (if p0 = 0xF0 then 0x90 else 0x80) ≤ b1 ∧ b1 ≤ (if p0 = 0xF4 then 0x8F else 0xBF))
    (h2 : 0x80 ≤ b2 ∧ b2 ≤ 0xBF) (h3 : 0x80 ≤ b3 ∧ b3 ≤ 0xBF) :
    DecodeRune (p0 :: b1 :: b2 :: b3 :: more) =
      (p0 % 8 * 262144 + b1 % 64 * 4096 + b2 % 64 * 64 + b3 % 64, 4) := by
  obtain ⟨hp1, hp2⟩ := hp
  obtain ⟨h1a, h1b⟩ := h1
  obtain ⟨h2a, h2b⟩ := h2
  obtain ⟨h3a, h3b⟩ := h3
  simp only [DecodeRune]
  rw [if_neg (by omega), if_neg (by omega)]
  simp only [show ¬ p0 < 0xE0 by omega, show ¬ p0 < 0xF0 by omega, if_false,
    show ¬ p0 = 0xE0 by omega, show ¬ p0 = 0xED by omega]
  rw [if_neg (by omega), if_neg (by omega), if_neg (by omega), if_neg (by omega),
    if_neg (by omega)]

/-- Decoding the encoding of a non-ASCII scalar value gives the value back,
with the number of bytes of the encoding. -/
theorem DecodeRune_EncodeRune (r : Nat) (more : GoString) (hv : ValidRune r) (h80 : 0x80 ≤ r) :
    DecodeRune (EncodeRune r ++ more) = (r, (EncodeRune r).length) := by
  unfold ValidRune at hv
  unfold EncodeRune
  by_cases h1 : r < 0x800
  · rw [if_neg (by omega), if_pos h1]
    simp only [List.cons_append, List.nil_append, List.length_cons, List.length_nil]
    rw [DecodeRune_two _ _ _ (by omega) (by omega)]
    simp only [Prod.mk.injEq, and_true]
    omega
  · by_cases h2 : r < 0x10000
    · rw [if_neg (by omega), if_neg h1, if_neg (by omega), if_pos h2]
      simp only [List.cons_append, List.nil_append, List.length_cons, List.length_nil]
      rw [DecodeRune_three _ _ _ _ (by omega) (by split_ifs <;> omega) (by omega)]
      simp only [Prod.mk.injEq, and_true]
      omega
    · rw [if_neg (by omega), if_neg h1, if_neg (by omega), if_neg h2]
      simp only [List.cons_append, List.nil_append, List.length_cons, List.length_nil]
      rw [DecodeRune_four _ _ _ _ _ (by omega) (by split_ifs <;> omega) (by omega) (by omega)]
      simp only [Prod.mk.injEq, and_true]
      omega

theorem EncodeRune_head (r : Nat) (hv : ValidRune r) (h80 : 0x80 ≤ r) :
    ∃ b t, EncodeRune r = b :: t ∧ 0xC2 ≤ b ∧ 2 ≤ (EncodeRune r).length := by
  unfold ValidRune at hv
  unfold EncodeRune
  by_cases h1 : r < 0x800
  · rw [if_neg (by omega), if_pos h1]
    exact ⟨_, _, rfl, by omega, by simp⟩
  · by_cases h2 : r < 0x10000
    · rw [if_neg (by omega), if_neg h1, if_neg (by omega), if_pos h2]
      exact ⟨_, _, rfl, by omega, by simp⟩
    · rw [if_neg (by omega), if_neg h1, if_neg (by omega), if_neg h2]
      exact ⟨_, _, rfl, by omega, by simp⟩

/-! ## JSON strings: writing -/

theorem appendStringStep_ascii (r : Nat) (more : GoString) (h : r < 0x80) :
    appendStringStep (r :: more) = (escapeRune r, 1) := by
  simp only [escapeRune, appendStringStep, h, if_true]
  split_ifs <;> rfl

theorem appendStringStep_rune (r : Nat) (more : GoString) (hv : ValidRune r) (h80 : 0x80 ≤ r) :
    appendStringStep (EncodeRune r ++ more) = (escapeRune r, (EncodeRune r).length) := by
  obtain ⟨b, t, hbt, hb, hlen⟩ := EncodeRune_head r hv h80
  have hdec := DecodeRune_EncodeRune r more hv h80
  have hstep : appendStringStep (EncodeRune r ++ more) =
      if (DecodeRune (EncodeRune r ++ more)).1 = RuneError ∧
          (DecodeRune (EncodeRune r ++ more)).2 = 1 then (lit "\\ufffd", 1)
      else if (DecodeRune (EncodeRune r ++ more)).1 = 0x2028 ∨
          (DecodeRune (EncodeRune r ++ more)).1 = 0x2029 then
        (lit "\\u202" ++ [hexDigit ((DecodeRune (EncodeRune r ++ more)).1 % 16)],
          (DecodeRune (EncodeRune r ++ more)).2)
      else ((EncodeRune r ++ more).take (DecodeRune (EncodeRune r ++ more)).2,
        (DecodeRune (EncodeRune r ++ more)).2) := by
    rw [hbt]
    simp only [appendStringStep, List.cons_append]
    rw [if_neg (by omega)]
  rw [hstep, hdec]
  simp only
  rw [if_neg (show ¬ (r = RuneError ∧ (EncodeRune r).length = 1) by omega)]
  unfold escapeRune
  rw [if_neg (show ¬ r < 0x80 by omega)]
  by_cases h2 : r = 0x2028 ∨ r = 0x2029
  · rw [if_pos h2, if_pos h2]
  · rw [if_neg h2, if_neg h2, List.take_left']
    rfl

theorem utf8_cons (ch : Char) (cs : List Char) :
    utf8 (ch :: cs) = EncodeRune ch.toNat ++ utf8 cs := by
  simp [utf8]

theorem escapeText_cons (ch : Char) (cs : List Char) :
    escapeText (ch :: cs) = escapeRune ch.toNat ++ escapeText cs := by
  simp [escapeText]

/-- The loop of `appendString` on the bytes of a text writes the escape of
each of its characters. -/
theorem appendStringLoop_utf8 (cs : List Char) :
    ∀ k, (utf8 cs).length ≤ k → appendStringLoop k (utf8 cs) = escapeText cs := by
  induction cs with
  | nil =>
    intro k _
    cases k <;> rfl
  | cons ch cs ih =>
    intro k hk
    rw [utf8_cons] at hk ⊢
    rw [escapeText_cons]
    have hv := Char_validRune ch
    by_cases h80 : ch.toNat < 0x80
    · rw [EncodeRune_ascii _ h80] at hk ⊢
      cases k with
      | zero => simp at hk
      | succ k =>
        simp only [List.singleton_append, appendStringLoop, appendStringStep_ascii _ _ h80,
          List.drop_succ_cons, List.drop_zero]
        rw [ih k (by simpa using hk)]
    · obtain ⟨b, t, hbt, _, hlen⟩ := EncodeRune_head ch.toNat hv (by omega)
      cases k with
      | zero => simp only [List.length_append] at hk; omega
      | succ k =>
        have hstep := appendStringStep_rune ch.toNat (utf8 cs) hv (by omega)
        have hunf : appendStringLoop (k + 1) (EncodeRune ch.toNat ++ utf8 cs) =
            (appendStringStep (EncodeRune ch.toNat ++ utf8 cs)).1 ++
              appendStringLoop k ((EncodeRune ch.toNat ++ utf8 cs).drop
                (appendStringStep (EncodeRune ch.toNat ++ utf8 cs)).2) := by
          rw [hbt]; rfl
        rw [hunf, hstep]
        simp only
        rw [List.drop_left', ih k (by simp only [List.length_append] at hk; omega)]
        rfl

theorem appendString_utf8 (cs : List Char) :
    appendString (utf8 cs) = 0x22 :: (escapeText cs ++ [0x22]) := by
  unfold appendString
  rw [appendStringLoop_utf8 cs _ (Nat.le_refl _)]
  rfl

/-! ## JSON strings: reading back -/

theorem unquoteStep_escape_ascii (r : Nat) (h : r < 0x80) (more : GoString) :
    unquoteStep (escapeRune r ++ more) = some ([r], more) ∧
    ∃ b t, escapeRune r = b :: t ∧ b ≠ 0x22 := by
  interval_cases r <;> exact ⟨rfl, _, _, rfl, by decide⟩

theorem unquoteStep_escape_rune (r : Nat) (hv : ValidRune r) (h80 : 0x80 ≤ r)
    (more : GoString) :
    unquoteStep (escapeRune r ++ more) = some (EncodeRune r, more) ∧
    ∃ b t, escapeRune r = b :: t ∧ b ≠ 0x22 := by
  by_cases h28 : r = 0x2028
  · subst h28; exact ⟨rfl, _, _, rfl, by decide⟩
  by_cases h29 : r = 0x2029
  · subst h29; exact ⟨rfl, _, _, rfl, by decide⟩
  have he : escapeRune r = EncodeRune r := by
    unfold escapeRune
    rw [if_neg (show ¬ r < 0x80 by omega), if_neg (by omega)]
  obtain ⟨b, t, hbt, hb, _⟩ := EncodeRune_head r hv h80
  have hdec := DecodeRune_EncodeRune r more hv h80
  refine ⟨?_, b, t, by rw [he, hbt], by omega⟩
  have hstep : unquoteStep (EncodeRune r ++ more) =
      some (EncodeRune (DecodeRune (EncodeRune r ++ more)).1,
        (EncodeRune r ++ more).drop (DecodeRune (EncodeRune r ++ more)).2) := by
    rw [hbt]
    simp only [unquoteStep, List.cons_append]
    rw [if_neg (show ¬ b = 0x5C by omega), if_neg (show ¬ (b = 0x22 ∨ b < 0x20) by omega),
      if_neg (show ¬ b < 0x80 by omega)]
  rw [he, hstep, hdec]
  simp only
  rw [List.drop_left']
  rfl

/-- Reading back the escape of one character gives the character's bytes. -/
theorem unquoteStep_escape (ch : Char) (more : GoString) :
    unquoteStep (escapeRune ch.toNat ++ more) = some (EncodeRune ch.toNat, more) ∧
    ∃ b t, escapeRune ch.toNat = b :: t ∧ b ≠ 0x22 := by
  by_cases h80 : ch.toNat < 0x80
  · rw [EncodeRune_ascii _ h80]
    exact unquoteStep_escape_ascii _ h80 more
  · exact unquoteStep_escape_rune _ (Char_validRune ch) (by omega) more

/-- The loop of `unquoteBytes` on the escaped text, a closing quote and more
input gives the bytes of the text and that further input. -/
theorem unquoteLoop_escapeText (cs : List Char) (more : GoString) :
    ∀ k, cs.length < k → unquoteLoop k (escapeText cs ++ 0x22 :: more) = some (utf8 cs, more) := by
  induction cs with
  | nil =>
    intro k hk
    cases k with
    | zero => exact absurd hk (Nat.not_lt_zero _)
    | succ k => rfl
  | cons ch cs ih =>
    intro k hk
    cases k with
    | zero => exact absurd hk (Nat.not_lt_zero _)
    | succ k =>
      obtain ⟨hstep, b, t, hbt, hb⟩ := unquoteStep_escape ch (escapeText cs ++ 0x22 :: more)
      rw [escapeText_cons, utf8_cons, List.append_assoc]
      rw [hbt] at hstep ⊢
      simp only [List.cons_append] at hstep ⊢
      simp only [unquoteLoop, if_neg hb, hstep]
      rw [ih k (by simpa using hk)]

theorem escapeText_length (cs : List Char) : cs.length ≤ (escapeText cs).length := by
  induction cs with
  | nil => simp [escapeText]
  | cons ch cs ih =>
    obtain ⟨_, b, t, hbt, _⟩ := unquoteStep_escape ch []
    rw [escapeText_cons, hbt]
    simp only [List.cons_append, List.length_cons, List.length_append]
    omega

/-- Reading a string literal written by `appendString` for a text gives the
bytes of the text back. -/
theorem parseString_escapeText (cs : List Char) (more : GoString) :
    parseString (escapeText cs ++ 0x22 :: more) = some (utf8 cs, more) := by
  unfold parseString
  apply unquoteLoop_escapeText
  have := escapeText_length cs
  simp only [List.length_append, List.length_cons]
  omega

/-! ## The output event: writing and reading back -/

theorem skipSpace_quote (t : GoString) : skipSpace (0x22 :: t) = 0x22 :: t := by
  simp [skipSpace, isJSONSpace]

theorem parseValue_string (d : Nat) (cs : List Char) (more : GoString) :
    parseValue d (0x22 :: (escapeText cs ++ 0x22 :: more)) = some (JValue.str (utf8 cs), more) := by
  cases d <;>
    simp [parseValue, parseValueWith, parseScalar, parseString_escapeText]

theorem marshalEvent_utf8 (name key val : List Char) :
    marshalEvent (utf8 name) (utf8 key) (utf8 val) =
      0x5B :: 0x22 :: (escapeText name ++ 0x22 :: 0x2C :: 0x7B :: 0x22 :: (escapeText key ++
        0x22 :: 0x3A :: 0x22 :: (escapeText val ++ 0x22 :: 0x7D :: [0x5D]))) := by
  have e1 : lit "[" = [0x5B] := by decide
  have e2 : lit "," = [0x2C] := by decide
  have e3 : lit "\x7b" = [0x7B] := by decide
  have e4 : lit ":" = [0x3A] := by decide
  have e5 : lit "\x7d" = [0x7D] := by decide
  have e6 : lit "]" = [0x5D] := by decide
  unfold marshalEvent
  rw [appendString_utf8, appendString_utf8, appendString_utf8, e1, e2, e3, e4, e5, e6]
  simp only [List.append_assoc, List.cons_append, List.nil_append]

theorem parseMembers_single (pv : GoString → Option (JValue × GoString)) (k : Nat)
    (key : List Char) (v : JValue) (body more : GoString)
    (hpv : pv (0x22 :: body) = some (v, 0x7D :: more)) :
    parseMembers pv (k + 1) (0x22 :: (escapeText key ++ 0x22 :: 0x3A :: 0x22 :: body)) [] =
      some ([(utf8 key, v)], more) := by
  have h3 : skipSpace (0x3A :: 0x22 :: body) = 0x3A :: 0x22 :: body := by
    simp [skipSpace, isJSONSpace]
  have h4 : skipSpace (0x7D :: more) = 0x7D :: more := by
    simp [skipSpace, isJSONSpace]
  simp [parseMembers, parseString_escapeText, h3, skipSpace_quote, hpv, h4, mapSet]

theorem parseElems_pair (pv : GoString → Option (JValue × GoString)) (k : Nat)
    (v1 v2 : JValue) (s1 s2 more : GoString)
    (h1 : pv s1 = some (v1, 0x2C :: 0x7B :: s2))
    (h2 : pv (0x7B :: s2) = some (v2, 0x5D :: more)) :
    parseElems pv (k + 2) s1 = some ([v1, v2], more) := by
  have e1 : skipSpace (0x2C :: 0x7B :: s2) = 0x2C :: 0x7B :: s2 := by
    simp [skipSpace, isJSONSpace]
  have e2 : skipSpace (0x7B :: s2) = 0x7B :: s2 := by
    simp [skipSpace, isJSONSpace]
  have e3 : skipSpace (0x5D :: more) = 0x5D :: more := by
    simp [skipSpace, isJSONSpace]
  simp [parseElems, h1, e1, e2, h2, e3]

theorem parseValue_succ (d : Nat) (s : GoString) :
    parseValue (d + 1) s = parseValueWith (some (parseValue d)) s := rfl

theorem parseValue_object (d : Nat) (key val : List Char) (more : GoString) :
    parseValue (d + 1) (0x7B :: 0x22 :: (escapeText key ++
      0x22 :: 0x3A :: 0x22 :: (escapeText val ++ 0x22 :: 0x7D :: more))) =
      some (JValue.object [(utf8 key, JValue.str (utf8 val))], more) := by
  rw [parseValue_succ]
  simp only [parseValueWith, skipSpace_quote]
  simp only [show ¬ ((0x7B : Nat) = 0x5B) by decide, show ¬ ((0x22 : Nat) = 0x7D) by decide,
    if_false, if_true]
  rw [parseMembers_single (parseValue d) _ key (JValue.str (utf8 val))
    (escapeText val ++ 0x22 :: 0x7D :: more) more (parseValue_string d val _)]

theorem parseValue_event (d : Nat) (name key val : List Char) :
    parseValue (d + 2) (0x5B :: 0x22 :: (escapeText name ++ 0x22 :: 0x2C :: 0x7B ::
      0x22 :: (escapeText key ++ 0x22 :: 0x3A :: 0x22 ::
        (escapeText val ++ 0x22 :: 0x7D :: [0x5D])))) =
      some (JValue.array [JValue.str (utf8 name),
        JValue.object [(utf8 key, JValue.str (utf8 val))]], []) := by
  rw [parseValue_succ]
  simp only [parseValueWith, skipSpace_quote]
  simp only [show ¬ ((0x22 : Nat) = 0x5D) by decide, if_false, if_true]
  rw [parseElems_pair (parseValue (d + 1)) _ _ _ _ _ []
    (parseValue_string (d + 1) name _) (parseValue_object d key val [0x5D])]

/-- Decoding the JSON that `json.Marshal` writes for
`[name, {key: val}]`, all three of them texts, gives back the array of the
string `name` and the one-entry map from `key` to the string `val`. -/
theorem jsonUnmarshal_marshalEvent (name key val : List Char) :
    jsonUnmarshal (marshalEvent (utf8 name) (utf8 key) (utf8 val)) =
      some [JValue.str (utf8 name), JValue.object [(utf8 key, JValue.str (utf8 val))]] := by
  rw [marshalEvent_utf8]
  have hsp : ∀ t : GoString, skipSpace (0x5B :: t) = 0x5B :: t := by
    intro t; simp [skipSpace, isJSONSpace]
  have harr : parseValue maxNestingDepth (0x5B :: 0x22 :: (escapeText name ++ 0x22 :: 0x2C ::
      0x7B :: 0x22 :: (escapeText key ++ 0x22 :: 0x3A :: 0x22 ::
        (escapeText val ++ 0x22 :: 0x7D :: [0x5D])))) = _ :=
    parseValue_event 9998 name key val
  unfold jsonUnmarshal
  rw [hsp, harr]
  simp [skipSpace]

/-! ## The working directory stays absolute -/

theorem IsAbs_cons (path : GoString) (h : IsAbs path = true) :
    ∃ t, path = Separator :: t := by
  cases path with
  | nil => simp [IsAbs, HasPrefix] at h
  | cons b t =>
    simp only [IsAbs, HasPrefix, List.isPrefixOf, Bool.and_true, beq_iff_eq] at h
    exact ⟨t, by rw [h]⟩

/-- The result of `filepath.Abs` is absolute, provided the process's own
working directory is. -/
theorem IsAbs_Abs (env : Env) (path result : GoString)
    (hwd : ∀ wd, env.Getwd = some wd → IsAbs wd = true)
    (h : Abs env path = some result) : IsAbs result = true := by
  unfold Abs at h
  by_cases hp : IsAbs path = true
  · rw [if_pos hp] at h
    simp only [Option.some.injEq] at h
    rw [← h]
    exact IsAbs_Clean path hp
  · rw [if_neg hp] at h
    cases hg : env.Getwd with
    | none => rw [hg] at h; exact absurd h (by simp)
    | some wd =>
      rw [hg] at h
      simp only [Option.some.injEq] at h
      obtain ⟨t, ht⟩ := IsAbs_cons wd (hwd wd hg)
      rw [← h, ht]
      simp only [Join, if_neg (List.cons_ne_nil _ _)]
      apply IsAbs_Clean
      simp [IsAbs, HasPrefix, joinSep, List.intercalate]

theorem executeLocalCommand_workdir (env : Env) (c c1 : Client) (cmd text : GoString)
    (hwd : ∀ wd, env.Getwd = some wd → IsAbs wd = true)
    (hc : IsAbs c.config.CurrentDirectory = true)
    (h : executeLocalCommand env c cmd = some (c1, text)) :
    IsAbs c1.config.CurrentDirectory = true := by
  unfold executeLocalCommand at h
  simp only at h
  split at h
  · split at h
    · split at h
      · rename_i absPath habs
        simp only [Option.some.injEq, Prod.mk.injEq] at h
        obtain ⟨rfl, _⟩ := h
        exact IsAbs_Abs env _ absPath hwd habs
      · simp only [Option.some.injEq, Prod.mk.injEq] at h
        obtain ⟨rfl, _⟩ := h
        exact hc
    · simp only [Option.some.injEq, Prod.mk.injEq] at h
      obtain ⟨rfl, _⟩ := h
      exact hc
  · split at h
    · exact absurd h (by simp)
    · split at h <;> split at h <;> simp only [Option.some.injEq, Prod.mk.injEq] at h <;>
        (obtain ⟨rfl, _⟩ := h; exact hc)

theorem executeCommand_workdir (env : Env) (c c1 : Client) (cmd : GoString)
    (hwd : ∀ wd, env.Getwd = some wd → IsAbs wd = true)
    (hc : IsAbs c.config.CurrentDirectory = true)
    (h : executeCommand env c cmd = some c1) :
    IsAbs c1.config.CurrentDirectory = true := by
  unfold executeCommand at h
  simp only at h
  split_ifs at h with h1 h2 h3 h4 h5 h6 h7
  all_goals first
    | (cases hx : executeLocalCommand env
          { c with calls := c.calls ++ [Call.dispatch (TrimSpace cmd)] } (TrimSpace cmd) with
        | none => rw [hx] at h; exact absurd h (by simp)
        | some r =>
          obtain ⟨c2, text⟩ := r
          rw [hx] at h
          simp only [Option.some.injEq] at h
          subst h
          rw [sendResponse_config]
          exact executeLocalCommand_workdir env
            { c with calls := c.calls ++ [Call.dispatch (TrimSpace cmd)] } c2 _ text hwd hc hx)
    | (simp only [Option.some.injEq] at h
       subst h
       simpa using hc)

/-- In every session reached from one whose working directory is absolute,
through `executeCommand` calls in worlds whose process directory is absolute,
the working directory is absolute, and so not empty. -/
theorem runCommands_workdir (steps : List (Env × GoString)) :
    ∀ c c1 : Client,
      (∀ step ∈ steps, ∀ wd, step.1.Getwd = some wd → IsAbs wd = true) →
      IsAbs c.config.CurrentDirectory = true →
      runCommands steps c = some c1 →
      IsAbs c1.config.CurrentDirectory = true ∧ c1.config.CurrentDirectory ≠ [] := by
  induction steps with
  | nil =>
    intro c c1 _ hc h
    simp only [runCommands, Option.some.injEq] at h
    subst h
    obtain ⟨t, ht⟩ := IsAbs_cons _ hc
    exact ⟨hc, by rw [ht]; exact List.cons_ne_nil _ _⟩
  | cons step more ih =>
    intro c c1 hwd hc h
    obtain ⟨env, cmd⟩ := step
    simp only [runCommands] at h
    cases hx : executeCommand env c cmd with
    | none => rw [hx] at h; exact absurd h (by simp)
    | some c2 =>
      rw [hx] at h
      exact ih c2 c1 (fun s hs => hwd s (List.mem_cons_of_mem _ hs))
        (executeCommand_workdir env c c2 cmd (hwd (env, cmd) (List.mem_cons_self _ _)) hc hx) h

/-! ## The "not available" branch -/

/-- The predicate `takesNotAvailableBranch` is the path condition of the last
branch of the dispatcher: under it the call answers "ADB mode not
available". -/
theorem executeCommand_not_available (env : Env) (c : Client) (cmd : GoString)
    (h : takesNotAvailableBranch c cmd) :
    executeCommand env c cmd =
      some (sendResponse { c with calls := c.calls ++ [Call.dispatch (TrimSpace cmd)] }
        (lit "ADB mode not available\n" ++ getPrompt
          { c with calls := c.calls ++ [Call.dispatch (TrimSpace cmd)] })) := by
  obtain ⟨h1, h2, h3, h4, h5, h6⟩ := h
  simp only [executeCommand, if_neg h1, if_neg h2, if_neg h3, if_neg h4, if_neg h5, if_neg h6]

/-! ## The iteration bounds of the loops are enough -/

/-- On a non-empty string `DecodeRune` consumes between one and four bytes. -/
theorem DecodeRune_size (b : Nat) (t : GoString) :
    1 ≤ (DecodeRune (b :: t)).2 ∧ (DecodeRune (b :: t)).2 ≤ 4 := by
  unfold DecodeRune
  simp only
  by_cases h1 : b < 0x80
  · rw [if_pos h1]; simp
  rw [if_neg h1]
  by_cases h2 : b < 0xC2 ∨ 0xF4 < b
  · rw [if_pos h2]; simp
  rw [if_neg h2]
  generalize (if b = 0xE0 then 0xA0 else if b = 0xF0 then 0x90 else 0x80) = lo
  generalize (if b = 0xED then 0x9F else if b = 0xF4 then 0x8F else 0xBF) = hi
  generalize (if b < 0xE0 then 2 else if b < 0xF0 then 3 else 4) = sz
  cases t with
  | nil => simp
  | cons b1 t1 =>
    simp only
    by_cases h3 : b1 < lo ∨ hi < b1
    · rw [if_pos h3]; simp
    rw [if_neg h3]
    by_cases h4 : sz ≤ 2
    · rw [if_pos h4]; simp
    rw [if_neg h4]
    cases t1 with
    | nil => simp
    | cons b2 t2 =>
      simp only
      by_cases h5 : b2 < 0x80 ∨ 0xBF < b2
      · rw [if_pos h5]; simp
      rw [if_neg h5]
      by_cases h6 : sz ≤ 3
      · rw [if_pos h6]; simp
      rw [if_neg h6]
      cases t2 with
      | nil => simp
      | cons b3 t3 =>
        simp only
        by_cases h7 : b3 < 0x80 ∨ 0xBF < b3
        · rw [if_pos h7]; simp
        · rw [if_neg h7]; simp

theorem trimLeftLoop_stable (f : Nat → Bool) (k : Nat) :
    ∀ s : GoString, s.length ≤ k → trimLeftLoop f (k + 1) s = trimLeftLoop f k s := by
  induction k with
  | zero =>
    intro s hs
    have : s = [] := List.length_eq_zero.mp (Nat.le_zero.mp hs)
    subst this
    rfl
  | succ k ih =>
    intro s hs
    cases s with
    | nil => rfl
    | cons b t =>
      have hsz := DecodeRune_size b t
      have hunf : ∀ n, trimLeftLoop f (n + 1) (b :: t) =
          if f (DecodeRune (b :: t)).1 then
            trimLeftLoop f n ((b :: t).drop (DecodeRune (b :: t)).2)
          else b :: t := fun n => rfl
      rw [hunf (k + 1), hunf k]
      split_ifs
      · apply ih
        simp only [List.length_drop, List.length_cons] at hs ⊢
        omega
      · rfl

/-- The iteration bound of `TrimLeftFunc` is enough: a larger one gives the
same result. -/
theorem trimLeftLoop_enough (f : Nat → Bool) (s : GoString) (k : Nat) (h : s.length ≤ k) :
    trimLeftLoop f k s = trimLeftLoop f s.length s := by
  induction k with
  | zero =>
    have : s.length = 0 := Nat.le_zero.mp h
    rw [this]
  | succ k ih =>
    by_cases hk : s.length ≤ k
    · rw [trimLeftLoop_stable f k s hk, ih hk]
    · have : s.length = k + 1 := by omega
      rw [this]

theorem lastRuneStart_le (s : GoString) (lim : Int) (k : Nat) :
    ∀ start : Int, lastRuneStart s lim k start ≤ start := by
  induction k with
  | zero => intro start; exact Int.le_refl _
  | succ k ih =>
    intro start
    unfold lastRuneStart
    split_ifs
    · exact Int.le_refl _
    · have := ih (start - 1)
      omega
    · exact Int.le_refl _

/-- On a non-empty string `DecodeLastRune` consumes at least one byte. -/
theorem DecodeLastRune_size (s : GoString) (hs : s ≠ []) : 1 ≤ (DecodeLastRune s).2 := by
  unfold DecodeLastRune
  cases hl : s.getLast? with
  | none => exact absurd (List.getLast?_eq_none_iff.mp hl) hs
  | some last =>
    simp only
    by_cases h1 : last < 0x80
    · rw [if_pos h1]
    · rw [if_neg h1]
      have hle := lastRuneStart_le s (max ((s.length : Int) - 4) 0) 4 ((s.length : Int) - 2)
      have hlen : 1 ≤ s.length := List.length_pos.mpr hs
      split_ifs with h2
      · exact Nat.le_refl _
      · simp only [ne_eq, Decidable.not_not] at h2
        simp only
        omega

theorem trimRightLoop_stable (f : Nat → Bool) (k : Nat) :
    ∀ s : GoString, s.length ≤ k → trimRightLoop f (k + 1) s = trimRightLoop f k s := by
  induction k with
  | zero =>
    intro s hs
    have : s = [] := List.length_eq_zero.mp (Nat.le_zero.mp hs)
    subst this
    rfl
  | succ k ih =>
    intro s hs
    cases s with
    | nil => rfl
    | cons b t =>
      have hsz := DecodeLastRune_size (b :: t) (List.cons_ne_nil _ _)
      have hunf : ∀ n, trimRightLoop f (n + 1) (b :: t) =
          if f (DecodeLastRune (b :: t)).1 then
            trimRightLoop f n ((b :: t).take ((b :: t).length - (DecodeLastRune (b :: t)).2))
          else b :: t := fun n => rfl
      rw [hunf (k + 1), hunf k]
      split_ifs
      · apply ih
        simp only [List.length_take, List.length_cons] at hs ⊢
        omega
      · rfl

/-- The iteration bound of `TrimRightFunc` is enough: a larger one gives the
same result. -/
theorem trimRightLoop_enough (f : Nat → Bool) (s : GoString) (k : Nat) (h : s.length ≤ k) :
    trimRightLoop f k s = trimRightLoop f s.length s := by
  induction k with
  | zero =>
    have : s.length = 0 := Nat.le_zero.mp h
    rw [this]
  | succ k ih =>
    by_cases hk : s.length ≤ k
    · rw [trimRightLoop_stable f k s hk, ih hk]
    · have : s.length = k + 1 := by omega
      rw [this]

theorem appendStringStep_size (b : Nat) (t : GoString) : 1 ≤ (appendStringStep (b :: t)).2 := by
  unfold appendStringStep
  simp only
  have hsz := (DecodeRune_size b t).1
  split_ifs <;> first | exact Nat.le_refl _ | exact hsz

theorem appendStringLoop_stable (k : Nat) :
    ∀ s : GoString, s.length ≤ k → appendStringLoop (k + 1) s = appendStringLoop k s := by
  induction k with
  | zero =>
    intro s hs
    have : s = [] := List.length_eq_zero.mp (Nat.le_zero.mp hs)
    subst this
    rfl
  | succ k ih =>
    intro s hs
    cases s with
    | nil => rfl
    | cons b t =>
      have hsz := appendStringStep_size b t
      have hunf : ∀ n, appendStringLoop (n + 1) (b :: t) =
          (appendStringStep (b :: t)).1 ++
            appendStringLoop n ((b :: t).drop (appendStringStep (b :: t)).2) := fun n => rfl
      rw [hunf (k + 1), hunf k, ih]
      simp only [List.length_drop, List.length_cons] at hs ⊢
      omega

/-- The iteration bound of `appendString` is enough: a larger one gives the
same result. -/
theorem appendStringLoop_enough (s : GoString) (k : Nat) (h : s.length ≤ k) :
    appendStringLoop k s = appendStringLoop s.length s := by
  induction k with
  | zero =>
    have : s.length = 0 := Nat.le_zero.mp h
    rw [this]
  | succ k ih =>
    by_cases hk : s.length ≤ k
    · rw [appendStringLoop_stable k s hk, ih hk]
    · have : s.length = k + 1 := by omega
      rw [this]

theorem getu4_length (s : GoString) (r : Nat) (h : getu4 s = some r) : 6 ≤ s.length := by
  unfold getu4 at h
  split at h
  · simp only [List.length_cons]; omega
  · exact absurd h (by simp)

/-- Every step of `unquoteBytes` consumes input. -/
theorem unquoteStep_consumes (s out more : GoString) (h : unquoteStep s = some (out, more)) :
    more.length < s.length := by
  unfold unquoteStep at h
  cases s with
  | nil => exact absurd h (by simp)
  | cons c t =>
    simp only at h
    by_cases hc : c = 0x5C
    · rw [if_pos hc] at h
      cases t with
      | nil => exact absurd h (by simp)
      | cons e t1 =>
        simp only at h
        by_cases hu : e = 0x75
        · have hne : ¬ (e = 0x22 ∨ e = 0x5C ∨ e = 0x2F) := by omega
          rw [if_neg hne, if_neg (by omega), if_neg (by omega), if_neg (by omega),
            if_neg (by omega), if_neg (by omega), if_pos hu] at h
          cases hg : getu4 (c :: e :: t1) with
          | none => rw [hg] at h; exact absurd h (by simp)
          | some rr =>
            have hl := getu4_length _ rr hg
            rw [hg] at h
            simp only at h
            by_cases h8 : 0xD800 ≤ rr ∧ rr < 0xE000
            · rw [if_pos h8] at h
              cases hg1 : getu4 ((c :: e :: t1).drop 6) with
              | none =>
                rw [hg1] at h
                simp only [Option.some.injEq, Prod.mk.injEq] at h
                obtain ⟨_, rfl⟩ := h
                simp only [List.length_drop]
                omega
              | some rr1 =>
                have hl1 := getu4_length _ rr1 hg1
                rw [hg1] at h
                simp only at h
                by_cases h9 : rr < 0xDC00 ∧ 0xDC00 ≤ rr1 ∧ rr1 < 0xE000
                · rw [if_pos h9] at h
                  simp only [Option.some.injEq, Prod.mk.injEq] at h
                  obtain ⟨_, rfl⟩ := h
                  simp only [List.length_drop] at hl1 ⊢
                  omega
                · rw [if_neg h9] at h
                  simp only [Option.some.injEq, Prod.mk.injEq] at h
                  obtain ⟨_, rfl⟩ := h
                  simp only [List.length_drop]
                  omega
            · rw [if_neg h8] at h
              simp only [Option.some.injEq, Prod.mk.injEq] at h
              obtain ⟨_, rfl⟩ := h
              simp only [List.length_drop]
              omega
        · rw [if_neg hu] at h
          split_ifs at h <;>
            (simp only [Option.some.injEq, Prod.mk.injEq] at h
             obtain ⟨_, rfl⟩ := h
             simp only [List.length_cons]
             omega)
    · rw [if_neg hc] at h
      have hsz := (DecodeRune_size c t).1
      by_cases hq : c = 0x22 ∨ c < 0x20
      · rw [if_pos hq] at h; exact absurd h (by simp)
      rw [if_neg hq] at h
      by_cases ha : c < 0x80
      · rw [if_pos ha] at h
        simp only [Option.some.injEq, Prod.mk.injEq] at h
        obtain ⟨_, rfl⟩ := h
        simp
      · rw [if_neg ha] at h
        simp only [Option.some.injEq, Prod.mk.injEq] at h
        obtain ⟨_, rfl⟩ := h
        simp only [List.length_drop, List.length_cons]
        omega

theorem unquoteLoop_stable (k : Nat) :
    ∀ s : GoString, s.length < k → unquoteLoop (k + 1) s = unquoteLoop k s := by
  induction k with
  | zero => intro s hs; exact absurd hs (Nat.not_lt_zero _)
  | succ k ih =>
    intro s hs
    cases s with
    | nil => rfl
    | cons c t =>
      have hunf : ∀ n, unquoteLoop (n + 1) (c :: t) =
          if c = 0x22 then some ([], t)
          else
            match unquoteStep (c :: t) with
            | none => none
            | some (out, more) =>
              match unquoteLoop n more with
              | none => none
              | some (d, r) => some (out ++ d, r) := fun n => rfl
      rw [hunf (k + 1), hunf k]
      split_ifs
      · rfl
      · cases hst : unquoteStep (c :: t) with
        | none => rfl
        | some p =>
          obtain ⟨out, more⟩ := p
          have := unquoteStep_consumes _ _ _ hst
          simp only
          rw [ih more (by simp only [List.length_cons] at hs this; omega)]

/-- The iteration bound of the string reader is enough: a larger one gives
the same result. -/
theorem unquoteLoop_enough (s : GoString) (k : Nat) (h : s.length < k) :
    unquoteLoop k s = parseString s := by
  unfold parseString
  induction k with
  | zero => exact absurd h (Nat.not_lt_zero _)
  | succ k ih =>
    by_cases hk : s.length < k
    · rw [unquoteLoop_stable k s hk, ih hk]
    · have : s.length = k := by omega
      rw [this]

theorem unquoteLoop_consumes (k : Nat) :
    ∀ s d r : GoString, unquoteLoop k s = some (d, r) → r.length < s.length := by
  induction k with
  | zero => intro s d r h; exact absurd h (by simp [unquoteLoop])
  | succ k ih =>
    intro s d r h
    cases s with
    | nil => exact absurd h (by simp [unquoteLoop])
    | cons c t =>
      simp only [unquoteLoop] at h
      by_cases hq : c = 0x22
      · rw [if_pos hq] at h
        simp only [Option.some.injEq, Prod.mk.injEq] at h
        obtain ⟨_, rfl⟩ := h
        simp
      · rw [if_neg hq] at h
        cases hst : unquoteStep (c :: t) with
        | none => rw [hst] at h; exact absurd h (by simp)
        | some p =>
          obtain ⟨out, more⟩ := p
          rw [hst] at h
          simp only at h
          cases hl : unquoteLoop k more with
          | none => rw [hl] at h; exact absurd h (by simp)
          | some q =>
            obtain ⟨d1, r1⟩ := q
            rw [hl] at h
            simp only [Option.some.injEq, Prod.mk.injEq] at h
            obtain ⟨_, rfl⟩ := h
            have h1 := unquoteStep_consumes _ _ _ hst
            have h2 := ih more d1 r1 hl
            omega

theorem skipSpace_length (s : GoString) : (skipSpace s).length ≤ s.length := by
  unfold skipSpace
  exact (List.dropWhile_sublist _).length_le

theorem dropWhile_length (p : Nat → Bool) (s : GoString) :
    (s.dropWhile p).length ≤ s.length :=
  (List.dropWhile_sublist _).length_le

theorem scanInt_consumes (s ip r : GoString) (h : scanInt s = some (ip, r)) :
    r.length < s.length := by
  unfold scanInt at h
  cases s with
  | nil => exact absurd h (by simp)
  | cons d t =>
    simp only at h
    have := dropWhile_length isDigit t
    split_ifs at h <;>
      (simp only [Option.some.injEq, Prod.mk.injEq] at h
       obtain ⟨_, rfl⟩ := h
       simp only [List.length_cons]
       omega)

theorem scanFrac_consumes (s fp r : GoString) (h : scanFrac s = some (fp, r)) :
    r.length ≤ s.length := by
  unfold scanFrac at h
  cases s with
  | nil =>
    simp only [Option.some.injEq, Prod.mk.injEq] at h
    obtain ⟨_, rfl⟩ := h
    exact Nat.le_refl _
  | cons c t =>
    simp only at h
    have := dropWhile_length isDigit t
    split_ifs at h <;>
      (simp only [Option.some.injEq, Prod.mk.injEq] at h
       obtain ⟨_, rfl⟩ := h
       simp only [List.length_cons]
       omega)

theorem scanExp_consumes (s et r : GoString) (ev : Int) (h : scanExp s = some (et, ev, r)) :
    r.length ≤ s.length := by
  unfold scanExp at h
  cases s with
  | nil =>
    simp only [Option.some.injEq, Prod.mk.injEq] at h
    obtain ⟨_, _, rfl⟩ := h
    exact Nat.le_refl _
  | cons c t =>
    simp only at h
    by_cases he : c = 0x65 ∨ c = 0x45
    · rw [if_pos he] at h
      cases t with
      | nil => exact absurd h (by simp)
      | cons sg t1 =>
        simp only at h
        have h1 := dropWhile_length isDigit t1
        have h2 := dropWhile_length isDigit (sg :: t1)
        split_ifs at h <;>
          (simp only [Option.some.injEq, Prod.mk.injEq] at h
           obtain ⟨_, _, rfl⟩ := h
           simp only [List.length_cons] at h2 ⊢
           omega)
    · rw [if_neg he] at h
      simp only [Option.some.injEq, Prod.mk.injEq] at h
      obtain ⟨_, _, rfl⟩ := h
      exact Nat.le_refl _

theorem parseNumber_consumes (s n r : GoString) (h : parseNumber s = some (n, r)) :
    r.length < s.length := by
  unfold parseNumber at h
  simp only at h
  cases h1 : scanInt (s.drop (if s.head? = some 0x2D then [0x2D] else ([] : GoString)).length) with
  | none => rw [h1] at h; exact absurd h (by simp)
  | some p1 =>
    obtain ⟨ip, r1⟩ := p1
    rw [h1] at h
    simp only at h
    cases h2 : scanFrac r1 with
    | none => rw [h2] at h; exact absurd h (by simp)
    | some p2 =>
      obtain ⟨fp, r2⟩ := p2
      rw [h2] at h
      simp only at h
      cases h3 : scanExp r2 with
      | none => rw [h3] at h; exact absurd h (by simp)
      | some p3 =>
        obtain ⟨et, ev, r3⟩ := p3
        rw [h3] at h
        simp only at h
        have k1 := scanInt_consumes _ _ _ h1
        have k2 := scanFrac_consumes _ _ _ h2
        have k3 := scanExp_consumes _ _ _ _ h3
        simp only [List.length_drop] at k1
        split_ifs at h <;>
          (simp only [Option.some.injEq, Prod.mk.injEq] at h
           obtain ⟨_, rfl⟩ := h
           omega)

theorem isPrefixOf_length (p s : GoString) (h : p.isPrefixOf s = true) : p.length ≤ s.length :=
  (List.isPrefixOf_iff_prefix.mp h).length_le

theorem parseScalar_consumes (s r : GoString) (v : JValue) (h : parseScalar s = some (v, r)) :
    r.length < s.length := by
  unfold parseScalar at h
  cases s with
  | nil => exact absurd h (by simp)
  | cons c t =>
    simp only at h
    by_cases hq : c = 0x22
    · rw [if_pos hq] at h
      cases hp : parseString t with
      | none => rw [hp] at h; exact absurd h (by simp)
      | some p =>
        obtain ⟨d, r1⟩ := p
        rw [hp] at h
        simp only [Option.some.injEq, Prod.mk.injEq] at h
        obtain ⟨_, rfl⟩ := h
        have := unquoteLoop_consumes _ _ _ _ hp
        simp only [List.length_cons]
        omega
    · rw [if_neg hq] at h
      by_cases ht : (lit "true").isPrefixOf (c :: t) = true
      · rw [if_pos ht] at h
        simp only [Option.some.injEq, Prod.mk.injEq] at h
        obtain ⟨_, rfl⟩ := h
        have := isPrefixOf_length _ _ ht
        have e : (lit "true").length = 4 := by decide
        simp only [List.length_drop, List.length_cons] at this ⊢
        omega
      rw [if_neg ht] at h
      by_cases hf : (lit "false").isPrefixOf (c :: t) = true
      · rw [if_pos hf] at h
        simp only [Option.some.injEq, Prod.mk.injEq] at h
        obtain ⟨_, rfl⟩ := h
        simp only [List.length_drop, List.length_cons]
        omega
      rw [if_neg hf] at h
      by_cases hn : (lit "null").isPrefixOf (c :: t) = true
      · rw [if_pos hn] at h
        simp only [Option.some.injEq, Prod.mk.injEq] at h
        obtain ⟨_, rfl⟩ := h
        simp only [List.length_drop, List.length_cons]
        omega
      rw [if_neg hn] at h
      cases hp : parseNumber (c :: t) with
      | none => rw [hp] at h; exact absurd h (by simp)
      | some p =>
        obtain ⟨n, r1⟩ := p
        rw [hp] at h
        simp only [Option.some.injEq, Prod.mk.injEq] at h
        obtain ⟨_, rfl⟩ := h
        exact parseNumber_consumes _ _ _ hp

theorem parseElems_consumes (pv : GoString → Option (JValue × GoString)) (hpv : Consumes pv)
    (k : Nat) :
    ∀ (s : GoString) (vs : List JValue) (r : GoString),
      parseElems pv k s = some (vs, r) → r.length < s.length := by
  induction k with
  | zero => intro s vs r h; exact absurd h (by simp [parseElems])
  | succ k ih =>
    intro s vs r h
    simp only [parseElems] at h
    cases hv : pv s with
    | none => rw [hv] at h; exact absurd h (by simp)
    | some p =>
      obtain ⟨v, r0⟩ := p
      have h0 := hpv s v r0 hv
      have hs0 := skipSpace_length r0
      rw [hv] at h
      simp only at h
      cases hsp : skipSpace r0 with
      | nil => rw [hsp] at h; exact absurd h (by simp)
      | cons c r1 =>
        rw [hsp] at h hs0
        simp only [List.length_cons] at hs0
        simp only at h
        by_cases hc : c = 0x2C
        · rw [if_pos hc] at h
          cases hrec : parseElems pv k (skipSpace r1) with
          | none => rw [hrec] at h; exact absurd h (by simp)
          | some q =>
            obtain ⟨vs1, r2⟩ := q
            rw [hrec] at h
            simp only [Option.some.injEq, Prod.mk.injEq] at h
            obtain ⟨_, rfl⟩ := h
            have h1 := ih _ _ _ hrec
            have h2 := skipSpace_length r1
            omega
        · rw [if_neg hc] at h
          split_ifs at h
          simp only [Option.some.injEq, Prod.mk.injEq] at h
          obtain ⟨_, rfl⟩ := h
          omega

theorem parseElems_stable (pv : GoString → Option (JValue × GoString)) (hpv : Consumes pv)
    (k : Nat) :
    ∀ s : GoString, s.length < k → parseElems pv (k + 1) s = parseElems pv k s := by
  induction k with
  | zero => intro s hs; exact absurd hs (Nat.not_lt_zero _)
  | succ k ih =>
    intro s hs
    have hunf : ∀ n, parseElems pv (n + 1) s =
        match pv s with
        | none => none
        | some (v, r) =>
          match skipSpace r with
          | [] => none
          | c :: r1 =>
            if c = 0x2C then
              match parseElems pv n (skipSpace r1) with
              | none => none
              | some (vs, r2) => some (v :: vs, r2)
            else if c = 0x5D then some ([v], r1)
            else none := fun n => rfl
    rw [hunf (k + 1), hunf k]
    cases hv : pv s with
    | none => rfl
    | some p =>
      obtain ⟨v, r0⟩ := p
      have h0 := hpv s v r0 hv
      have hs0 := skipSpace_length r0
      simp only
      cases hsp : skipSpace r0 with
      | nil => rfl
      | cons c r1 =>
        rw [hsp] at hs0
        simp only [List.length_cons] at hs0
        have h2 := skipSpace_length r1
        simp only
        rw [ih (skipSpace r1) (by omega)]

theorem parseMembers_consumes (pv : GoString → Option (JValue × GoString)) (hpv : Consumes pv)
    (k : Nat) :
    ∀ (s : GoString) (acc m : List (GoString × JValue)) (r : GoString),
      parseMembers pv k s acc = some (m, r) → r.length < s.length := by
  induction k with
  | zero => intro s acc m r h; exact absurd h (by simp [parseMembers])
  | succ k ih =>
    intro s acc m r h
    cases s with
    | nil => exact absurd h (by simp [parseMembers])
    | cons q t =>
      simp only [parseMembers] at h
      by_cases hq : q = 0x22
      · rw [if_pos hq] at h
        cases hp : parseString t with
        | none => rw [hp] at h; exact absurd h (by simp)
        | some p =>
          obtain ⟨key, r0⟩ := p
          have h0 := unquoteLoop_consumes _ _ _ _ hp
          have hs0 := skipSpace_length r0
          rw [hp] at h
          simp only at h
          cases hsp : skipSpace r0 with
          | nil => rw [hsp] at h; exact absurd h (by simp)
          | cons c r1 =>
            rw [hsp] at h hs0
            simp only [List.length_cons] at hs0
            simp only at h
            by_cases hc : c = 0x3A
            · rw [if_pos hc] at h
              have hs1 := skipSpace_length r1
              cases hv : pv (skipSpace r1) with
              | none => rw [hv] at h; exact absurd h (by simp)
              | some p2 =>
                obtain ⟨v, r2⟩ := p2
                have h2 := hpv _ v r2 hv
                have hs2 := skipSpace_length r2
                rw [hv] at h
                simp only at h
                cases hsp2 : skipSpace r2 with
                | nil => rw [hsp2] at h; exact absurd h (by simp)
                | cons c2 r3 =>
                  rw [hsp2] at h hs2
                  simp only [List.length_cons] at hs2 ⊢
                  simp only at h
                  by_cases hc2 : c2 = 0x2C
                  · rw [if_pos hc2] at h
                    have h3 := ih _ _ _ _ h
                    have hs3 := skipSpace_length r3
                    omega
                  · rw [if_neg hc2] at h
                    split_ifs at h
                    simp only [Option.some.injEq, Prod.mk.injEq] at h
                    obtain ⟨_, rfl⟩ := h
                    omega
            · rw [if_neg hc] at h; exact absurd h (by simp)
      · rw [if_neg hq] at h; exact absurd h (by simp)

theorem parseMembers_stable (pv : GoString → Option (JValue × GoString)) (hpv : Consumes pv)
    (k : Nat) :
    ∀ (s : GoString) (acc : List (GoString × JValue)), s.length < k →
      parseMembers pv (k + 1) s acc = parseMembers pv k s acc := by
  induction k with
  | zero => intro s acc hs; exact absurd hs (Nat.not_lt_zero _)
  | succ k ih =>
    intro s acc hs
    cases s with
    | nil => rfl
    | cons q t =>
      have hunf : ∀ n, parseMembers pv (n + 1) (q :: t) acc =
          if q = 0x22 then
            match parseString t with
            | none => none
            | some (key, r) =>
              match skipSpace r with
              | [] => none
              | c :: r1 =>
                if c = 0x3A then
                  match pv (skipSpace r1) with
                  | none => none
                  | some (v, r2) =>
                    match skipSpace r2 with
                    | [] => none
                    | c2 :: r3 =>
                      if c2 = 0x2C then parseMembers pv n (skipSpace r3) (mapSet acc key v)
                      else if c2 = 0x7D then some (mapSet acc key v, r3)
                      else none
                else none
          else none := fun n => rfl
      rw [hunf (k + 1), hunf k]
      by_cases hq : q = 0x22
      · rw [if_pos hq, if_pos hq]
        cases hp : parseString t with
        | none => rfl
        | some p =>
          obtain ⟨key, r0⟩ := p
          have h0 := unquoteLoop_consumes _ _ _ _ hp
          have hs0 := skipSpace_length r0
          simp only
          cases hsp : skipSpace r0 with
          | nil => rfl
          | cons c r1 =>
            rw [hsp] at hs0
            simp only [List.length_cons] at hs0 hs
            simp only
            by_cases hc : c = 0x3A
            · rw [if_pos hc, if_pos hc]
              have hs1 := skipSpace_length r1
              cases hv : pv (skipSpace r1) with
              | none => rfl
              | some p2 =>
                obtain ⟨v, r2⟩ := p2
                have h2 := hpv _ v r2 hv
                have hs2 := skipSpace_length r2
                simp only
                cases hsp2 : skipSpace r2 with
                | nil => rfl
                | cons c2 r3 =>
                  rw [hsp2] at hs2
                  simp only [List.length_cons] at hs2
                  have hs3 := skipSpace_length r3
                  simp only
                  rw [ih (skipSpace r3) _ (by omega)]
            · rw [if_neg hc, if_neg hc]
      · rw [if_neg hq, if_neg hq]

theorem parseValueWith_consumes (inner : Option (GoString → Option (JValue × GoString)))
    (hin : ∀ pv, inner = some pv → Consumes pv) : Consumes (parseValueWith inner) := by
  intro s v r h
  unfold parseValueWith at h
  cases s with
  | nil => exact absurd h (by simp)
  | cons c t =>
    simp only at h
    have hsp := skipSpace_length t
    by_cases hb : c = 0x5B
    · rw [if_pos hb] at h
      cases inner with
      | none => exact absurd h (by simp)
      | some pv =>
        simp only at h
        cases hs : skipSpace t with
        | nil => rw [hs] at h; exact absurd h (by simp)
        | cons c1 r1 =>
          rw [hs] at h hsp
          simp only [List.length_cons] at hsp ⊢
          simp only at h
          by_cases hc : c1 = 0x5D
          · rw [if_pos hc] at h
            simp only [Option.some.injEq, Prod.mk.injEq] at h
            obtain ⟨_, rfl⟩ := h
            omega
          · rw [if_neg hc] at h
            cases he : parseElems pv (r1.length + 2) (c1 :: r1) with
            | none => rw [he] at h; exact absurd h (by simp)
            | some q =>
              obtain ⟨vs, r2⟩ := q
              rw [he] at h
              simp only [Option.some.injEq, Prod.mk.injEq] at h
              obtain ⟨_, rfl⟩ := h
              have := parseElems_consumes pv (hin pv rfl) _ _ _ _ he
              simp only [List.length_cons] at this
              omega
    · rw [if_neg hb] at h
      by_cases hb2 : c = 0x7B
      · rw [if_pos hb2] at h
        cases inner with
        | none => exact absurd h (by simp)
        | some pv =>
          simp only at h
          cases hs : skipSpace t with
          | nil => rw [hs] at h; exact absurd h (by simp)
          | cons c1 r1 =>
            rw [hs] at h hsp
            simp only [List.length_cons] at hsp ⊢
            simp only at h
            by_cases hc : c1 = 0x7D
            · rw [if_pos hc] at h
              simp only [Option.some.injEq, Prod.mk.injEq] at h
              obtain ⟨_, rfl⟩ := h
              omega
            · rw [if_neg hc] at h
              cases he : parseMembers pv (r1.length + 2) (c1 :: r1) [] with
              | none => rw [he] at h; exact absurd h (by simp)
              | some q =>
                obtain ⟨m, r2⟩ := q
                rw [he] at h
                simp only [Option.some.injEq, Prod.mk.injEq] at h
                obtain ⟨_, rfl⟩ := h
                have := parseMembers_consumes pv (hin pv rfl) _ _ _ _ _ he
                simp only [List.length_cons] at this
                omega
      · rw [if_neg hb2] at h
        exact parseScalar_consumes _ _ _ h

/-- The value reader consumes input at every nesting allowance. -/
theorem parseValue_consumes (d : Nat) : Consumes (parseValue d) := by
  induction d with
  | zero =>
    exact parseValueWith_consumes none (fun pv h => absurd h (by simp))
  | succ d ih =>
    apply parseValueWith_consumes
    intro pv h
    simp only [Option.some.injEq] at h
    rw [← h]
    exact ih

/-- The iteration bound of the array reader is enough: a larger one gives
the same result. -/
theorem parseElems_enough (d : Nat) (s : GoString) (k : Nat) (h : s.length < k) :
    parseElems (parseValue d) k s = parseElems (parseValue d) (s.length + 1) s := by
  induction k with
  | zero => exact absurd h (Nat.not_lt_zero _)
  | succ k ih =>
    by_cases hk : s.length < k
    · rw [parseElems_stable _ (parseValue_consumes d) k s hk, ih hk]
    · have : s.length = k := by omega
      rw [this]

/-- The iteration bound of the object reader is enough: a larger one gives
the same result. -/
theorem parseMembers_enough (d : Nat) (s : GoString) (acc : List (GoString × JValue)) (k : Nat)
    (h : s.length < k) :
    parseMembers (parseValue d) k s acc = parseMembers (parseValue d) (s.length + 1) s acc := by
  induction k with
  | zero => exact absurd h (Nat.not_lt_zero _)
  | succ k ih =>
    by_cases hk : s.length < k
    · rw [parseMembers_stable _ (parseValue_consumes d) k s acc hk, ih hk]
    · have : s.length = k := by omega
      rw [this]

/-! ## From the wire to the dispatcher -/

/-- An inbound `execute_command` event carrying the command `pwd` reaches the
dispatcher with that command. -/
theorem processMessage_execute_pwd (env : Env) (c : Client) :
    processMessage env c (lit "42[\"execute_command\",\x7b\"command\":\"pwd\"\x7d]") =
      executeCommand env c (lit "pwd") := by
  have hm : lit "42[\"execute_command\",\x7b\"command\":\"pwd\"\x7d]" =
      0x34 :: 0x32 :: lit "[\"execute_command\",\x7b\"command\":\"pwd\"\x7d]" := by decide
  have hj : jsonUnmarshal (lit "[\"execute_command\",\x7b\"command\":\"pwd\"\x7d]") =
      some [JValue.str (lit "execute_command"),
        JValue.object [(lit "command", JValue.str (lit "pwd"))]] := by rfl
  rw [hm]
  simp only [processMessage, handleSocketIOMessage, handleEvent, hj, mapGet]
  simp

/-- The scenario of a fresh session: after the welcome text, the inbound event
`execute_command` with command `pwd` is answered by one more frame, the
output event carrying the working directory, a newline and the prompt. -/
theorem scenario_pwd :
    (processMessage sampleEnv sampleClient
      (lit "42[\"execute_command\",\x7b\"command\":\"pwd\"\x7d]")).map (fun c => c.conn) =
      some (some [lit "40", outputFrame (welcome sampleClient),
        outputFrame (lit "/home/user\nlocal:user$ ")]) := by
  rw [processMessage_execute_pwd]
  rfl

/-! # The claims -/

/-! ## C1: mode transitions -/

/-- C1 (as the code has it): the session built in `main` starts in mode
`"local"`; from every session state the command `mode local` returns and
leaves the mode `"local"`; the command that enters the interactive mode is
`mode adb`: it returns, sets the mode to `"adb"` when the configured ADB path
is non-empty, and leaves the mode as it was otherwise. -/
theorem mode_transitions (env : Env) (c : Client) (serverURL currentDir adbPath : GoString) :
    (NewClient (initialConfig serverURL currentDir adbPath)).config.CurrentMode = lit "local" ∧
    (∃ c1, executeCommand env c (lit "mode local") = some c1 ∧
      c1.config.CurrentMode = lit "local") ∧
    (∃ c1, executeCommand env c (lit "mode adb") = some c1 ∧
      c1.config.CurrentMode =
        if c.config.ADBPath ≠ [] then lit "adb" else c.config.CurrentMode) := by
  refine ⟨rfl, ⟨_, executeCommand_mode_local env c, by simp⟩, ?_⟩
  by_cases hp : c.config.ADBPath = []
  · exact ⟨_, executeCommand_mode_adb_unavailable env c hp, by simp [hp]⟩
  · exact ⟨_, executeCommand_mode_adb_available env c hp, by simp [hp]⟩

/-- C1 as stated fails: `mode interactive` is not a command of the
dispatcher.  On the sample session, whose ADB path is non-empty, it is handed
to the local shell and the mode stays `"local"`. -/
theorem mode_interactive_is_not_a_command :
    sampleClient.config.ADBPath ≠ [] ∧
    sampleClient.config.CurrentMode = lit "local" ∧
    (executeCommand sampleEnv sampleClient (lit "mode interactive")).map
      (fun c1 => (c1.config.CurrentMode, c1.calls)) =
      some (lit "local",
        [Call.dispatch (lit "mode interactive"), Call.localCmd (lit "mode interactive")]) := by
  refine ⟨by decide, by decide, ?_⟩
  rfl

/-! ## C2: messages that are not `execute_command` events -/

/-- C2: for every inbound message that is not an `execute_command` event
(empty, an unknown frame kind, an envelope whose payload does not parse as an
array starting with a string, an event of another name, ...),
`processMessage` returns; it dispatches no command and calls no backend (the
call history, the child process and its input are as before), the
configuration (mode, working directory) is unchanged, and the frames it
writes, if any, are not output events. -/
theorem other_messages_ignored (env : Env) (c : Client) (message : GoString)
    (h : ¬ isExecuteCommandEvent message) :
    ∃ c1, processMessage env c message = some c1 ∧
      c1.calls = c.calls ∧ c1.adbProcess = c.adbProcess ∧ c1.adbStdin = c.adbStdin ∧
      c1.config = c.config ∧
      ∃ extra, written c1 = written c ++ extra ∧ ∀ s, outputFrame s ∉ extra := by
  refine ⟨_, processMessage_of_not_execute env c message h, ?_⟩
  split
  · refine ⟨by simp, ?_, ?_, by simp, ?_⟩
    · unfold sendMessage; cases c.conn <;> rfl
    · unfold sendMessage; cases c.conn <;> rfl
    · cases hc : c.conn with
      | none => exact ⟨[], by simp [written, sendMessage, hc], by simp⟩
      | some frames =>
        refine ⟨[lit "3"], by simp [written, sendMessage, hc], ?_⟩
        intro s hs
        exact outputFrame_ne_pong s (by simpa using hs)
  · exact ⟨rfl, rfl, rfl, rfl, [], by simp, by simp⟩

/-- C2 at a concrete input: an event of another name carrying a command. -/
theorem other_messages_ignored_witness :
    ¬ isExecuteCommandEvent (lit "42[\"run\",\x7b\"command\":\"ls\"\x7d]") ∧
    ∃ c1, processMessage sampleEnv sampleClient (lit "42[\"run\",\x7b\"command\":\"ls\"\x7d]") = some c1 ∧
      c1.calls = sampleClient.calls ∧ c1.adbProcess = sampleClient.adbProcess ∧
      c1.adbStdin = sampleClient.adbStdin ∧ c1.config = sampleClient.config ∧
      ∃ extra, written c1 = written sampleClient ++ extra ∧ ∀ s, outputFrame s ∉ extra := by
  have hn : ¬ isExecuteCommandEvent (lit "42[\"run\",\x7b\"command\":\"ls\"\x7d]") := by
    rintro ⟨payload, args, hm, hj⟩
    have hp : payload = lit "[\"run\",\x7b\"command\":\"ls\"\x7d]" := by
      have := congrArg (List.drop 2) hm
      simpa using this.symm
    have hv : jsonUnmarshal (lit "[\"run\",\x7b\"command\":\"ls\"\x7d]") =
        some [JValue.str (lit "run"), JValue.object [(lit "command", JValue.str (lit "ls"))]] := by
      rfl
    rw [hp, hv] at hj
    simp only [Option.some.injEq, List.cons.injEq, JValue.str.injEq] at hj
    exact absurd hj.1 (by decide)
  exact ⟨hn, other_messages_ignored sampleEnv sampleClient _ hn⟩

/-! ## C3: ping and pong -/

/-- C3: for every inbound message whose first byte is `2`, whatever follows,
`processMessage` on a connected session returns, writes exactly one frame,
the string `3`, and changes nothing else: no command is dispatched, no backend
is called, no output event is written, and the configuration is the same. -/
theorem ping_answered_with_pong (env : Env) (c : Client) (rest : GoString)
    (frames : List GoString) (hconn : c.conn = some frames) :
    processMessage env c (0x32 :: rest) = some { c with conn := some (frames ++ [lit "3"]) } := by
  simp [processMessage, sendMessage_connected c (lit "3") frames hconn]

/-- C3 at a concrete input: the ping frame `2probe` on the sample session. -/
theorem ping_answered_with_pong_witness :
    sampleClient.conn = some (written sampleClient) ∧
    processMessage sampleEnv sampleClient (0x32 :: lit "probe") =
      some { sampleClient with conn := some (written sampleClient ++ [lit "3"]) } :=
  ⟨rfl, ping_answered_with_pong sampleEnv sampleClient (lit "probe") (written sampleClient) rfl⟩

/-! ## C4: the output event read back -/

/-- C4 (as the code has it): for any string `s` that is valid UTF-8 (the
empty string and strings with quotes or newlines included), `sendOutput`
sends the frame `outputFrame s`; that frame is `4`, `2` and a payload, and
decoding the payload as JSON gives an array of two elements: the string
`output_from_client` and an object with exactly one field, `output`, equal to
`s`. -/
theorem output_event_round_trip (c : Client) (s : GoString) (hs : ValidUTF8 s) :
    sendOutput c s = sendMessage c (outputFrame s) ∧
    ∃ payload, outputFrame s = 0x34 :: 0x32 :: payload ∧
      jsonUnmarshal payload =
        some [JValue.str (lit "output_from_client"),
          JValue.object [(lit "output", JValue.str s)]] := by
  obtain ⟨cs, rfl⟩ := hs
  exact ⟨rfl, marshalEvent (lit "output_from_client") (lit "output") (utf8 cs), rfl,
    jsonUnmarshal_marshalEvent "output_from_client".toList "output".toList cs⟩

/-- C4 at a concrete input: a text with quotes, a newline, markup characters
and non-ASCII characters. -/
theorem output_event_round_trip_witness :
    ValidUTF8 (lit "say \"hi\"\n<b>é€😀</b>") ∧
    (sendOutput sampleClient (lit "say \"hi\"\n<b>é€😀</b>") =
      sendMessage sampleClient (outputFrame (lit "say \"hi\"\n<b>é€😀</b>")) ∧
    ∃ payload, outputFrame (lit "say \"hi\"\n<b>é€😀</b>") = 0x34 :: 0x32 :: payload ∧
      jsonUnmarshal payload =
        some [JValue.str (lit "output_from_client"),
          JValue.object [(lit "output", JValue.str (lit "say \"hi\"\n<b>é€😀</b>"))]]) :=
  ⟨⟨_, rfl⟩, output_event_round_trip sampleClient _ ⟨_, rfl⟩⟩

/-- C4 as stated fails: a Go string need not be valid UTF-8 (the output of a
command is arbitrary bytes).  For the one-byte string `0xFF` the frame decodes
to an `output` field holding the three bytes of U+FFFD, not the byte sent. -/
theorem invalid_utf8_is_replaced :
    outputFrame [0xFF] =
      0x34 :: 0x32 :: marshalEvent (lit "output_from_client") (lit "output") [0xFF] ∧
    jsonUnmarshal (marshalEvent (lit "output_from_client") (lit "output") [0xFF]) =
      some [JValue.str (lit "output_from_client"),
        JValue.object [(lit "output", JValue.str [0xEF, 0xBF, 0xBD])]] ∧
    ([0xEF, 0xBF, 0xBD] : GoString) ≠ [0xFF] :=
  ⟨rfl, by rfl, by decide⟩

/-! ## C5: `cd ..` -/

/-- C5: for every absolute working directory `D`, `executeLocalCommand("cd ..")`
returns, and with `P = filepath.Join(D, "..")`, the parent of `D`: when `P`
exists and is a directory the working directory becomes `P` and the text
confirms it; otherwise the working directory, like the rest of the
configuration, is unchanged and the returned text contains
"No such file or directory". -/
theorem cd_parent (env : Env) (c : Client) (hD : IsAbs c.config.CurrentDirectory = true) :
    (env.Stat (Join [c.config.CurrentDirectory, lit ".."]) = some true →
      executeLocalCommand env c (lit "cd ..") =
        some ({ c with
            calls := c.calls ++ [Call.localCmd (lit "cd ..")]
            config := { c.config with
              CurrentDirectory := Join [c.config.CurrentDirectory, lit ".."] } },
          lit "Changed directory to: " ++ Join [c.config.CurrentDirectory, lit ".."])) ∧
    (env.Stat (Join [c.config.CurrentDirectory, lit ".."]) ≠ some true →
      ∃ text, executeLocalCommand env c (lit "cd ..") =
          some ({ c with calls := c.calls ++ [Call.localCmd (lit "cd ..")] }, text) ∧
        Contains text (lit "No such file or directory")) := by
  have hpre : HasPrefix (lit "cd ..") (lit "cd ") = true := by decide
  have hpath := cd_dotdot_path env { c with calls := c.calls ++ [Call.localCmd (lit "cd ..")] }
  simp only at hpath
  constructor
  · intro hs
    simp only [executeLocalCommand, hpre, if_true, hpath, hs, Abs_Join_dotdot env _ hD]
  · intro hs
    refine ⟨lit "cd: " ++ Join [c.config.CurrentDirectory, lit ".."] ++
      lit ": No such file or directory", ?_, ?_⟩
    · cases hst : env.Stat (Join [c.config.CurrentDirectory, lit ".."]) with
      | none => simp only [executeLocalCommand, hpre, if_true, hpath, hst]
      | some b =>
        cases b with
        | false => simp only [executeLocalCommand, hpre, if_true, hpath, hst]
        | true => exact absurd hst hs
    · have e : Contains (lit ": No such file or directory") (lit "No such file or directory") := by
        unfold Contains; decide
      obtain ⟨a, b, hab⟩ := e
      exact ⟨lit "cd: " ++ Join [c.config.CurrentDirectory, lit ".."] ++ a, b, by
        rw [← hab]; simp only [List.append_assoc]⟩

/-- C5 at a concrete input: `cd ..` in `/home/user`, whose parent `/home`
exists and is a directory. -/
theorem cd_parent_witness :
    IsAbs sampleClient.config.CurrentDirectory = true ∧
    Join [sampleClient.config.CurrentDirectory, lit ".."] = lit "/home" ∧
    sampleEnv.Stat (Join [sampleClient.config.CurrentDirectory, lit ".."]) = some true ∧
    executeLocalCommand sampleEnv sampleClient (lit "cd ..") =
      some ({ sampleClient with
          calls := sampleClient.calls ++ [Call.localCmd (lit "cd ..")]
          config := { sampleClient.config with
            CurrentDirectory := Join [sampleClient.config.CurrentDirectory, lit ".."] } },
        lit "Changed directory to: " ++ Join [sampleClient.config.CurrentDirectory, lit ".."]) :=
  ⟨by decide, by decide, by decide,
    (cd_parent sampleEnv sampleClient (by decide)).1 (by decide)⟩

/-! ## C6: `pwd` in local mode -/

/-- C6: in mode `"local"` with a non-empty working directory `D`, on a
connected session, the command `pwd` returns and writes exactly one frame, the
output event carrying `D`, a newline and the prompt `local:<Base D>$ `; mode,
working directory and the rest of the session are unchanged (the call is
recorded, no backend is called); and the welcome text of such a session ends
with that same prompt. -/
theorem pwd_in_local_mode (env : Env) (c : Client) (frames : List GoString)
    (hmode : c.config.CurrentMode = lit "local")
    (hdir : c.config.CurrentDirectory ≠ [])
    (hconn : c.conn = some frames) :
    executeCommand env c (lit "pwd") =
      some { c with
        conn := some (frames ++ [outputFrame (c.config.CurrentDirectory ++ lit "\n" ++
          (lit "local:" ++ Base c.config.CurrentDirectory ++ lit "$ "))])
        calls := c.calls ++ [Call.dispatch (lit "pwd")] } ∧
    (lit "local:" ++ Base c.config.CurrentDirectory ++ lit "$ ") <:+ welcome c := by
  have h1 : lit "pwd" ≠ lit "mode local" := by decide
  have h2 : lit "pwd" ≠ lit "mode adb" := by decide
  have h3 : lit "pwd" ≠ lit "help" := by decide
  constructor
  · simp only [executeCommand, trimSpace_pwd, if_neg h1, if_neg h2, if_neg h3, if_true, hmode,
      sendResponse, if_pos hdir, sendOutput, sendMessage, hconn, getPrompt, ne_eq,
      not_false_eq_true]
  · unfold welcome getPrompt
    rw [if_pos hmode]
    exact List.suffix_append _ _

/-- C6 at a concrete input: `pwd` on the sample session in `/home/user`. -/
theorem pwd_in_local_mode_witness :
    executeCommand sampleEnv sampleClient (lit "pwd") =
      some { sampleClient with
        conn := some (written sampleClient ++
          [outputFrame (lit "/home/user" ++ lit "\n" ++ (lit "local:" ++ lit "user" ++ lit "$ "))])
        calls := [Call.dispatch (lit "pwd")] } ∧
    (lit "local:" ++ lit "user" ++ lit "$ ") <:+ welcome sampleClient :=
  pwd_in_local_mode sampleEnv sampleClient (written sampleClient) (by decide) (by decide) rfl

/-! ## C7: ADB mode without a backend -/

/-- C7 (as the code has it): in mode `"adb"` with no ADB path configured, on a
connected session, every command other than `mode local`, `help` and `pwd`
(after trimming) returns and writes exactly one frame, an output event whose
text contains "not available", and leaves the configuration, the mode with it,
unchanged. -/
theorem stranded_interactive_mode (env : Env) (c : Client) (frames : List GoString)
    (cmd : GoString)
    (hmode : c.config.CurrentMode = lit "adb")
    (hpath : c.config.ADBPath = [])
    (hconn : c.conn = some frames)
    (h1 : TrimSpace cmd ≠ lit "mode local")
    (h2 : TrimSpace cmd ≠ lit "help")
    (h3 : TrimSpace cmd ≠ lit "pwd") :
    ∃ c1 out, executeCommand env c cmd = some c1 ∧
      c1.conn = some (frames ++ [outputFrame out]) ∧
      Contains out (lit "not available") ∧
      c1.config = c.config := by
  have hml : lit "adb" ≠ lit "local" := by decide
  have hnl : c.config.CurrentMode ≠ lit "local" := by rw [hmode]; exact hml
  by_cases h4 : TrimSpace cmd = lit "mode adb"
  · have hx : executeCommand env c cmd =
        some (sendResponse { c with calls := c.calls ++ [Call.dispatch (TrimSpace cmd)] }
          (lit "ADB not available. Please install ADB first.\n" ++ getPrompt
            { c with calls := c.calls ++ [Call.dispatch (TrimSpace cmd)] })) := by
      simp only [executeCommand, if_neg h1, if_pos h4, if_pos hpath]
    refine ⟨_, lit "ADB not available. Please install ADB first.\n" ++ lit "adb$ " ++
      lit "\n" ++ lit "adb$ ", hx, ?_, ?_, ?_⟩
    · have hne : lit "ADB not available. Please install ADB first.\n" ≠ [] := by decide
      simp [sendResponse, sendOutput, sendMessage, hconn, getPrompt, hnl, hne]
    · have e : Contains (lit "ADB not available. Please install ADB first.\n")
          (lit "not available") := by unfold Contains; decide
      exact contains_append_right _ _ _ (contains_append_right _ _ _
        (contains_append_right _ _ _ e))
    · simp
  · have hx : executeCommand env c cmd =
        some (sendResponse { c with calls := c.calls ++ [Call.dispatch (TrimSpace cmd)] }
          (lit "ADB mode not available\n" ++ getPrompt
            { c with calls := c.calls ++ [Call.dispatch (TrimSpace cmd)] })) := by
      simp only [executeCommand, if_neg h1, if_neg h2, if_neg h3, if_neg h4, if_neg hnl,
        hpath, ne_eq, not_true_eq_false, if_false]
    refine ⟨_, lit "ADB mode not available\n" ++ lit "adb$ " ++ lit "\n" ++ lit "adb$ ",
      hx, ?_, ?_, ?_⟩
    · have hne : lit "ADB mode not available\n" ≠ [] := by decide
      simp [sendResponse, sendOutput, sendMessage, hconn, getPrompt, hnl, hne]
    · have e : Contains (lit "ADB mode not available\n") (lit "not available") := by
        unfold Contains; decide
      exact contains_append_right _ _ _ (contains_append_right _ _ _
        (contains_append_right _ _ _ e))
    · simp

/-- C7 at a concrete input: `ls` on the session stranded in ADB mode. -/
theorem stranded_interactive_mode_witness :
    ∃ c1 out, executeCommand sampleEnv strandedClient (lit "ls") = some c1 ∧
      c1.conn = some ([] ++ [outputFrame out]) ∧
      Contains out (lit "not available") ∧
      c1.config = strandedClient.config :=
  stranded_interactive_mode sampleEnv strandedClient [] (lit "ls") rfl rfl rfl
    (by decide) (by decide) (by decide)

/-- C7 as stated fails: in mode `"adb"` with no ADB path configured, the
command `mode local` changes the mode to `"local"`, and the one output event
it writes does not contain "not available". -/
theorem stranded_mode_local_still_switches :
    strandedClient.config.CurrentMode = lit "adb" ∧
    strandedClient.config.ADBPath = [] ∧
    (executeCommand sampleEnv strandedClient (lit "mode local")).map
      (fun c1 => (c1.config.CurrentMode, c1.conn)) =
      some (lit "local",
        some [outputFrame (lit "Switched to local mode\nlocal:user$ \nlocal:user$ ")]) ∧
    ¬ Contains (lit "Switched to local mode\nlocal:user$ \nlocal:user$ ")
      (lit "not available") := by
  refine ⟨rfl, rfl, rfl, ?_⟩
  unfold Contains
  decide

/-! ## C8: the output reader -/

/-- C8: while the session is running and the child process is alive, the
output reader, run on the child's output stream, returns having written to
the connection exactly one output event per complete line that is non-empty
once its newline and one trailing carriage return are stripped, each carrying
the stripped line, in the order of the stream; lines that are empty produce
no event, and nothing else in the session changes. -/
theorem output_reader_forwards_lines (c : Client) (stream : GoString)
    (frames : List GoString)
    (hrun : c.running = true) (hproc : c.adbProcess = some false)
    (hout : c.adbStdout = some stream) (hconn : c.conn = some frames) :
    readADBOutput c =
      some { c with conn := some (frames ++ (forwardedLines stream).map outputFrame) } := by
  have hloop := readADBOutputLoop_spec (stream.length + 1) c stream frames (Nat.lt_succ_self _)
    hrun hproc hconn
  unfold readADBOutput
  rw [hout]
  simp only
  rw [hloop, hout]

/-- C8 at a concrete input: the stream `echo:ls` followed by a newline yields
exactly one event, with output `echo:ls`. -/
theorem output_reader_forwards_lines_witness :
    forwardedLines (lit "echo:ls\n") = [lit "echo:ls"] ∧
    readADBOutput echoClient =
      some { echoClient with
        conn := some (written sampleClient ++
          (forwardedLines (lit "echo:ls\n")).map outputFrame) } :=
  ⟨by decide, output_reader_forwards_lines echoClient (lit "echo:ls\n") (written sampleClient)
    rfl rfl rfl rfl⟩

/-! ## C9: the 30-second deadline -/

/-- C9 fails on the code: a command that is not `cd`, runs for 31 seconds
(past the 30-second deadline) and exits with status 0 does not produce the
time-out message.  With no output the call returns the exit-code text; with
output `done` it returns that output. -/
theorem deadline_not_enforced :
    (executeLocalCommand slowEnv sampleClient (lit "sleep 31")).map (fun r => r.2) =
      some (lit "Command executed (exit code: 0)") ∧
    (executeLocalCommand slowEchoEnv sampleClient (lit "sleep 31; echo done")).map
      (fun r => r.2) = some (lit "done\n") ∧
    lit "Command executed (exit code: 0)" ≠ lit "Command timed out (30s limit)" ∧
    lit "done\n" ≠ lit "Command timed out (30s limit)" := by
  refine ⟨by rfl, by rfl, by decide, by decide⟩

/-! ## C10: the reachable modes -/

/-- C10: in every session state reached from the initial state (mode
`"local"`) by a sequence of `executeCommand` calls that return, in whatever
worlds, the mode is `"local"` or `"adb"`, it is `"adb"` only if the configured
ADB path is non-empty, and for no command is the "ADB mode not available"
branch of the dispatcher taken. -/
theorem reachable_mode_invariant (serverURL currentDir adbPath : GoString)
    (steps : List (Env × GoString)) (c1 : Client)
    (h : runCommands steps (Connect (NewClient (initialConfig serverURL currentDir adbPath))) =
      some c1) :
    (c1.config.CurrentMode = lit "local" ∨ c1.config.CurrentMode = lit "adb") ∧
    (c1.config.CurrentMode = lit "adb" → c1.config.ADBPath ≠ []) ∧
    (∀ cmd, ¬ takesNotAvailableBranch c1 cmd) := by
  have hinit : (Connect (NewClient (initialConfig serverURL currentDir adbPath))).config.CurrentMode
      = lit "local" := by
    simp [Connect, NewClient, initialConfig]
  have hinv := (runCommands_invariant steps _ c1 h (Or.inl hinit)).2
  have hml : lit "adb" ≠ lit "local" := by decide
  refine ⟨?_, ?_, ?_⟩
  · rcases hinv with h1 | h1
    · exact Or.inl h1
    · exact Or.inr h1.1
  · intro hadb
    rcases hinv with h1 | h1
    · rw [h1] at hadb; exact absurd hadb.symm hml
    · exact h1.2
  · intro cmd hb
    obtain ⟨_, _, _, _, hnl, hnp⟩ := hb
    rcases hinv with h1 | h1
    · exact hnl h1
    · exact hnp h1.2

/-- C10 at a concrete input: three commands on the sample session, the
second of which switches to ADB mode. -/
theorem reachable_mode_invariant_witness :
    ∃ c1, runCommands [(sampleEnv, lit "ls"), (sampleEnv, lit "mode adb"), (sampleEnv, lit "help")]
        (Connect (NewClient (initialConfig (lit "http://localhost:5001") (lit "/home/user")
          (lit "adb")))) = some c1 ∧
      c1.config.CurrentMode = lit "adb" ∧
      ((c1.config.CurrentMode = lit "local" ∨ c1.config.CurrentMode = lit "adb") ∧
      (c1.config.CurrentMode = lit "adb" → c1.config.ADBPath ≠ []) ∧
      (∀ cmd, ¬ takesNotAvailableBranch c1 cmd)) :=
  ⟨_, rfl, rfl, reachable_mode_invariant (lit "http://localhost:5001") (lit "/home/user")
    (lit "adb") [(sampleEnv, lit "ls"), (sampleEnv, lit "mode adb"), (sampleEnv, lit "help")] _ rfl⟩

end AdbClient
